import Mathlib

/-!
Verification development for the `testrepository` test-result repository and
runner.  The definitions below are a shallow embedding of the core data model
and algorithms of the Rust sources:

* `src/repository/test_run.rs` — `TestId`, `TestStatus`, `TestResult`, `TestRun`;
* `src/subunit_stream.rs` — `parse_stream`, `write_stream`, `filter_failing_tests`;
* `src/repository/file.rs` — `write_failing_run_from_raw` (replace) and
  `update_failing_run_from_raw` (merge) for the `failing` artifact;
* `src/partition.rs` and `src/grouping.rs` — `partition_tests`,
  `partition_tests_with_grouping`, `group_tests`;
* `src/commands/run.rs` — the thread join / process wait ordering of the
  serial, parallel and isolated run modes, embedded as action traces.

External crates are modelled at their interface: the subunit v2 binary codec
(crate `subunit`) is represented by the stream of `ScannedItem`s its iterator
yields, timestamps by an integer millisecond value together with an explicit
"unconvertible" marker, and the regex engine (crate `regex`) by an abstract
key-extraction function.  Rust `HashMap`s are modelled as association lists
whose iteration order is one fixed linearization; none of the verified claims
depends on hash iteration order.
-/

namespace TestRepo

/-! ### Association lists modelling `std::collections::HashMap` -/

/-- Lookup in an association list (`HashMap::get`). -/
def alookup {β : Type} : List (String × β) → String → Option β
  | [], _ => none
  | p :: rest, k => if p.1 = k then some p.2 else alookup rest k

/-- Insert-or-replace (`HashMap::insert`): any existing binding of the key is
dropped and the new binding appended. -/
def ains {β : Type} (m : List (String × β)) (k : String) (v : β) : List (String × β) :=
  (m.filter (fun p => p.1 ≠ k)) ++ [(k, v)]

/-- Removal (`HashMap::remove`). -/
def aremove {β : Type} (m : List (String × β)) (k : String) : List (String × β) :=
  m.filter (fun p => p.1 ≠ k)

/-! ### Data model (`src/repository/test_run.rs`) -/

/-- `TestId` is a newtype over `String`; we use `String` directly. -/
abbrev TestId := String

/-- `TestStatus` (`test_run.rs`, lines 47-60). -/
inductive TestStatus where
  | success
  | failure
  | error
  | skip
  | expectedFailure
  | unexpectedSuccess
  deriving DecidableEq

/-- `TestStatus::is_failure` (`test_run.rs`, lines 66-71):
Failure, Error and UnexpectedSuccess. -/
def TestStatus.is_failure : TestStatus → Bool
  | .failure => true
  | .error => true
  | .unexpectedSuccess => true
  | _ => false

/-- `TestStatus::is_success` (`test_run.rs`, lines 76-81):
Success, Skip and ExpectedFailure. -/
def TestStatus.is_success : TestStatus → Bool
  | .success => true
  | .skip => true
  | .expectedFailure => true
  | _ => false

/-- `TestResult` (`test_run.rs`, lines 102-115).  Durations are modelled in
whole milliseconds (`std::time::Duration` values in this code base are
created with millisecond precision by `parse_stream`). -/
structure TestResult where
  test_id : TestId
  status : TestStatus
  duration : Option Nat
  message : Option String
  details : Option String
  tags : List String
  deriving DecidableEq

/-- `TestRun` (`test_run.rs`, lines 190-199).  The timestamp is a UTC instant
in milliseconds since the epoch; the wall-clock value chosen by
`TestRun::new` is irrelevant to every claim below, so runs carry an arbitrary
integer timestamp.  `results` is the `HashMap<TestId, TestResult>` as an
association list. -/
structure TestRun where
  id : String
  timestamp : Int
  results : List (TestId × TestResult)
  tags : List String

/-- `TestRun::add_result` (`test_run.rs`, lines 219-221): insert keyed by the
result's own test id, replacing any previous entry. -/
def TestRun.add_result (run : TestRun) (r : TestResult) : TestRun :=
  { run with results := ains run.results r.test_id r }

/-! ### Subunit v2 events (interface of the external `subunit` crate)

Only the event fields that `subunit_stream.rs` reads or writes are modelled:
test id, status, timestamp, tags, and the single optional file attachment
(name and content; the content is stored as the `String` that
`String::from_utf8_lossy` produces from it). -/

/-- `subunit::types::teststatus::TestStatus`. -/
inductive SubunitStatus where
  | undefined
  | enumeration
  | inProgress
  | success
  | uxsuccess
  | skipped
  | failed
  | xfail
  deriving DecidableEq

/-- A subunit timestamp: either a UTC instant (milliseconds) that converts to
a `chrono::DateTime`, or a value on which `TryInto<chrono::DateTime>` fails
(`convert_timestamp`, `subunit_stream.rs` lines 63-67, is the only consumer). -/
inductive SubTimestamp where
  | valid (ms : Int)
  | invalid
  deriving DecidableEq

/-- One subunit packet (`subunit::types::event::Event`), restricted to the
fields this repository uses. -/
structure SubEvent where
  test_id : Option String
  status : SubunitStatus
  timestamp : Option SubTimestamp
  tags : Option (List String)
  file : Option (String × String)
  deriving DecidableEq

/-- One item yielded by `subunit::io::sync::iter_stream`: an iteration error
(`Err`), an `Unknown` chunk (corrupt or truncated packet), a `Bytes` span of
interleaved non-subunit output, or a decoded `Event`. -/
inductive StreamItem where
  | errItem
  | unknownItem
  | bytesItem
  | eventItem (e : SubEvent)
  deriving DecidableEq

/-! ### `src/subunit_stream.rs` -/

/-- `MAX_CONSECUTIVE_ERRORS` (`subunit_stream.rs`, line 20). -/
def maxConsecutiveErrors : Nat := 100

/-- `convert_timestamp` (`subunit_stream.rs`, lines 63-67): the only hard
error of the parser. -/
def convert_timestamp : SubTimestamp → Except String Int
  | .valid ms => .ok ms
  | .invalid => .error "Invalid timestamp"

/-- `convert_subunit_status` (`subunit_stream.rs`, lines 70-81): terminal
statuses map to a `TestStatus`, the rest to `none`. -/
def convert_subunit_status : SubunitStatus → Option TestStatus
  | .success => some .success
  | .failed => some .failure
  | .skipped => some .skip
  | .xfail => some .expectedFailure
  | .uxsuccess => some .unexpectedSuccess
  | .undefined => none
  | .enumeration => none
  | .inProgress => none

/-- Mutable state of one `parse_stream` call: the accumulating result map,
the `start_times` map, and the `consecutive_errors` counter. -/
structure ParseState where
  results : List (TestId × TestResult)
  startTimes : List (String × Int)
  consecutiveErrors : Nat

/-- Processing of one decoded event by `parse_stream` (`subunit_stream.rs`,
lines 425-481).  The `consecutive_errors` counter is reset (done in the
`Ok(item)` arm of the source); an in-progress event records a start time
(converting its timestamp, which may hard-fail); a terminal event computes a
duration when both a recorded start time and an event timestamp exist,
extracts tags and the file attachment, and inserts a `TestResult`; events
with no test id or a non-terminal status are skipped. -/
def processEvent (st0 : ParseState) (e : SubEvent) : Except String ParseState :=
  let st : ParseState := { st0 with consecutiveErrors := 0 }
  match e.test_id with
  | none => .ok st
  | some tid =>
    if e.status = SubunitStatus.inProgress then
      match e.timestamp with
      | some ts =>
        match convert_timestamp ts with
        | .ok dt => .ok { st with startTimes := ains st.startTimes tid dt }
        | .error m => .error m
      | none => .ok st
    else
      match convert_subunit_status e.status with
      | none => .ok st
      | some status =>
        let tags := e.tags.getD []
        let md : Option String × Option String :=
          match e.file with
          | some nc => (some nc.2, some nc.2)
          | none => (none, none)
        match alookup st.startTimes tid, e.timestamp with
        | some startTime, some endTs =>
          match convert_timestamp endTs with
          | .ok endMs =>
            let dms : Int := endMs - startTime
            let dur : Option Nat := if 0 ≤ dms then some dms.toNat else none
            let res : TestResult := ⟨tid, status, dur, md.1, md.2, tags⟩
            .ok { st with results := ains st.results tid res }
          | .error m => .error m
        | _, _ =>
          let res : TestResult := ⟨tid, status, none, md.1, md.2, tags⟩
          .ok { st with results := ains st.results tid res }

/-- The scanning loop of `parse_stream` (`subunit_stream.rs`, lines 394-483).
`Err` items increment `consecutive_errors` and break out of the loop (with
the partial state) once the counter reaches `MAX_CONSECUTIVE_ERRORS`;
`Unknown` items first have the counter reset by the `Ok(item)` arm and then
incremented, so they leave it at 1; `Bytes` items reset it; events reset it
and are processed by `processEvent`, whose timestamp error aborts the whole
parse. -/
def parseGo : List StreamItem → ParseState → Except String ParseState
  | [], st => .ok st
  | .errItem :: rest, st =>
    if st.consecutiveErrors + 1 ≥ maxConsecutiveErrors then .ok st
    else parseGo rest { st with consecutiveErrors := st.consecutiveErrors + 1 }
  | .unknownItem :: rest, st =>
    if 0 + 1 ≥ maxConsecutiveErrors then .ok st
    else parseGo rest { st with consecutiveErrors := 0 + 1 }
  | .bytesItem :: rest, st => parseGo rest { st with consecutiveErrors := 0 }
  | .eventItem e :: rest, st =>
    match processEvent st e with
    | .ok st2 => parseGo rest st2
    | .error m => .error m

/-- `parse_stream` projected onto the result map (the run id it stamps on the
`TestRun` and the `Utc::now()` timestamp play no role in any claim). -/
def parseEvents (items : List StreamItem) : Except String (List (TestId × TestResult)) :=
  (parseGo items ⟨[], [], 0⟩).map (fun st => st.results)

/-- `parse_stream` (`subunit_stream.rs`, lines 386-486) as a `TestRun`. -/
def parse_stream (items : List StreamItem) (run_id : String) : Except String TestRun :=
  (parseGo items ⟨[], [], 0⟩).map (fun st => ⟨run_id, 0, st.results, []⟩)

/-- The status mapping of `write_stream` (`subunit_stream.rs`, lines
572-579); subunit v2 has no separate error status, so `Error` is written as
`Failed`. -/
def TestStatus.toSubunit : TestStatus → SubunitStatus
  | .success => .success
  | .failure => .failed
  | .error => .failed
  | .skip => .skipped
  | .expectedFailure => .xfail
  | .unexpectedSuccess => .uxsuccess

/-- The events `write_stream` emits for one result (`subunit_stream.rs`,
lines 547-606): when a duration is present, first a synthetic in-progress
event at `run.timestamp - Duration::seconds(duration.as_secs())` — note the
truncation of the duration to whole seconds — then the terminal event at
`run.timestamp`, with the result's tags and, when details are present, a
single `traceback` file attachment.  The event builder leaves `tags` unset
when no tag is added. -/
def writeResultEvents (runTs : Int) (r : TestResult) : List SubEvent :=
  (match r.duration with
   | some d =>
     [{ test_id := some r.test_id
        status := SubunitStatus.inProgress
        timestamp := some (SubTimestamp.valid (runTs - ((d / 1000 : Nat) : Int) * 1000))
        tags := if r.tags.isEmpty then none else some r.tags
        file := none }]
   | none => []) ++
  [{ test_id := some r.test_id
     status := r.status.toSubunit
     timestamp := some (SubTimestamp.valid runTs)
     tags := if r.tags.isEmpty then none else some r.tags
     file := r.details.map (fun d => ("traceback", d)) }]

/-- `write_stream` (`subunit_stream.rs`, lines 546-612) as the sequence of
events serialized to the writer, in the iteration order of the result map. -/
def write_stream (run : TestRun) : List SubEvent :=
  run.results.flatMap (fun p => writeResultEvents run.timestamp p.2)

/-- The items a downstream `iter_stream` yields from the bytes `write_stream`
produced: the external codec decodes each serialized event back. -/
def writeItems (run : TestRun) : List StreamItem :=
  (write_stream run).map StreamItem.eventItem

/-- The failing-classification of `filter_failing_tests`
(`subunit_stream.rs`, lines 504-507): `Failed` or `UnexpectedSuccess`. -/
def subunitIsFailure : SubunitStatus → Bool
  | .failed => true
  | .uxsuccess => true
  | _ => false

/-- First pass of `filter_failing_tests` (`subunit_stream.rs`, lines
499-514): the set of test ids having at least one `Failed` or
`UnexpectedSuccess` event anywhere in the stream (the `HashSet` is modelled
as a list; only membership is ever consulted). -/
def collectFailingIds (items : List StreamItem) : List String :=
  items.foldl
    (fun acc it =>
      match it with
      | .eventItem e =>
        match e.test_id with
        | some tid => if subunitIsFailure e.status then tid :: acc else acc
        | none => acc
      | _ => acc)
    []

/-- `filter_failing_tests` (`subunit_stream.rs`, lines 492-541): second pass
copies through exactly the events whose test id is in the failing set;
events without a test id, `Bytes`, `Unknown` and erroneous items are
dropped. -/
def filter_failing_tests (items : List StreamItem) : List SubEvent :=
  let failing := collectFailingIds items
  items.filterMap
    (fun it =>
      match it with
      | .eventItem e =>
        match e.test_id with
        | some tid => if tid ∈ failing then some e else none
        | none => none
      | _ => none)

/-! ### `src/repository/file.rs` — the failing artifact -/

/-- `read_failing_run` (`file.rs`, lines 117-138): an absent `failing` file
reads as the empty map, otherwise the file is parsed.  A parse error
propagates; `update_failing_run_from_raw` immediately discards it via
`unwrap_or_default`, which is the form modelled here. -/
def readFailingRunOrDefault (file : Option (List StreamItem)) : List (TestId × TestResult) :=
  match file with
  | none => []
  | some items =>
    match parseEvents items with
    | .ok rs => rs
    | .error _ => []

/-- `write_failing_run_from_raw` (`file.rs`, lines 140-157): the replace
transition rewrites the `failing` file as `filter_failing_tests` of the raw
run stream, removing the file when the filter output is empty (an empty file
and an absent file parse identically, so the artifact is modelled as the
filtered event list). -/
def write_failing_run_from_raw (raw : List StreamItem) : List SubEvent :=
  filter_failing_tests raw

/-- The in-memory map update of `update_failing_run_from_raw` (`file.rs`,
lines 163-175): failing results are inserted, succeeding results removed,
starting from the parse of the existing failing file. -/
def updatedFailingMap (old : Option (List StreamItem)) (newResults : List (TestId × TestResult)) :
    List (TestId × TestResult) :=
  newResults.foldl
    (fun m p =>
      if p.2.status.is_failure then ains m p.2.test_id p.2
      else if p.2.status.is_success then aremove m p.2.test_id
      else m)
    (readFailingRunOrDefault old)

/-- The events copied over from the existing failing file by
`update_failing_run_from_raw` (`file.rs`, lines 202-225): the decoded events
whose test id is still a key of the updated failing map and is not a key of
the new run's results. -/
def keptOldEvents (old : Option (List StreamItem))
    (updated newResults : List (TestId × TestResult)) : List SubEvent :=
  match old with
  | none => []
  | some items =>
    items.filterMap
      (fun it =>
        match it with
        | .eventItem e =>
          match e.test_id with
          | some tid =>
            if (alookup updated tid).isSome ∧ (alookup newResults tid).isNone
            then some e else none
          | none => none
        | _ => none)

/-- `update_failing_run_from_raw` (`file.rs`, lines 159-235): parse the new
run (errors propagate), update the failing map; when the map is empty the
failing file is removed (`none`), otherwise the new file holds the events
kept from the old file followed by `filter_failing_tests` of the new raw
stream. -/
def update_failing_run_from_raw (old : Option (List StreamItem)) (raw : List StreamItem) :
    Except String (Option (List SubEvent)) :=
  match parseEvents raw with
  | .error m => .error m
  | .ok newResults =>
    let updated := updatedFailingMap old newResults
    if updated = [] then .ok none
    else .ok (some (keptOldEvents old updated newResults ++ filter_failing_tests raw))

/-! ### `src/partition.rs` and `src/grouping.rs` -/

/-- Index of the first minimum of `d :: ds` (auxiliary scan).  Rust's
`Iterator::min_by_key` returns the first of equally minimal elements. -/
def minIdxGo : List Nat → Nat → Nat → Nat → Nat
  | [], bi, _, _ => bi
  | d :: ds, bi, bd, i => if d < bd then minIdxGo ds i d (i + 1) else minIdxGo ds bi bd (i + 1)

/-- Index of the first minimum of a list of totals (`min_by_key` over the
partition totals, `partition.rs` lines 64-67 and 139-143). -/
def minIdx : List Nat → Nat
  | [] => 0
  | d :: ds => minIdxGo ds 0 d 1

/-- In-place update of element `i` (`partitions[i]` mutation); out-of-range
indices leave the list unchanged. -/
def modifyIdx {α : Type} : List α → Nat → (α → α) → List α
  | [], _, _ => []
  | x :: xs, 0, f => f x :: xs
  | x :: xs, i + 1, f => x :: modifyIdx xs i f

/-- Stable insertion into a list sorted descending by duration: the new pair
goes before the first strictly smaller duration, after equal ones. -/
def insertDesc (x : String × Nat) : List (String × Nat) → List (String × Nat)
  | [] => [x]
  | y :: ys => if x.2 ≥ y.2 then x :: y :: ys else y :: insertDesc x ys

/-- Stable descending sort by duration
(`with_duration.sort_by(|a, b| b.1.cmp(&a.1))`, `partition.rs` line 53;
`sort_by` is a stable sort). -/
def sortDesc (l : List (String × Nat)) : List (String × Nat) :=
  l.foldr insertDesc []

/-- The greedy phase of `partition_tests` (`partition.rs`, lines 60-71): each
pair in turn is appended to the partition with the smallest tracked total,
whose total then grows by the pair's duration. -/
def greedyAssign (sorted : List (String × Nat)) (ps : List (List String × Nat)) :
    List (List String × Nat) :=
  sorted.foldl
    (fun ps p =>
      let i := minIdx (ps.map (fun q => q.2))
      modifyIdx ps i (fun q => (q.1 ++ [p.1], q.2 + p.2)))
    ps

/-- The round-robin phase of `partition_tests` (`partition.rs`, lines 73-76):
the `idx`-th id without a known duration goes to partition `idx % k`. -/
def roundRobinAssign (withoutD : List String) (k : Nat) (ps : List (List String × Nat)) :
    List (List String × Nat) :=
  withoutD.enum.foldl
    (fun ps p => modifyIdx ps (p.1 % k) (fun q => (q.1 ++ [p.2], q.2)))
    ps

/-- `partition_tests` (`partition.rs`, lines 27-80).  Durations are a partial
map from id to duration (nanosecond-precision `Duration` ordered by `cmp`;
any fixed unit works, `Nat` here).  `concurrency = 0` yields no partitions,
`concurrency = 1` the whole input; otherwise ids with known durations are
split off in input order, stably sorted descending, assigned greedily to the
least-loaded partition, and the remaining ids are dealt round-robin. -/
def partition_tests (test_ids : List String) (durations : String → Option Nat)
    (concurrency : Nat) : List (List String) :=
  if concurrency = 0 then []
  else if concurrency = 1 then [test_ids]
  else
    let withD := test_ids.filterMap (fun id => (durations id).map (fun d => (id, d)))
    let withoutD := test_ids.filter (fun id => (durations id).isNone)
    let init : List (List String × Nat) := List.replicate concurrency ([], 0)
    let afterGreedy := greedyAssign (sortDesc withD) init
    (roundRobinAssign withoutD concurrency afterGreedy).map (fun q => q.1)

/-- `group_tests` (`grouping.rs`, lines 34-65).  The regex engine is external
(crate `regex`); the key a compiled pattern extracts from a test id — named
capture group `group`, else first capture group, else whole match, else the
id itself when the pattern does not match — is abstracted into the function
`key`.  Tests fold into an association list of groups; a test is appended to
the group of its key, groups appearing in first-occurrence order. -/
def group_tests (tests : List String) (key : String → String) :
    List (String × List String) :=
  tests.foldl
    (fun groups t =>
      match alookup groups (key t) with
      | some members => ains groups (key t) (members ++ [t])
      | none => groups ++ [(key t, [t])])
    []

/-- Total known duration of a group (`partition.rs`, line 124). -/
def groupDuration (durations : String → Option Nat) (members : List String) : Nat :=
  (members.filterMap durations).sum

/-- Stable insertion for the descending sort of groups by total duration. -/
def insertDescG (x : String × List String × Nat) :
    List (String × List String × Nat) → List (String × List String × Nat)
  | [] => [x]
  | y :: ys => if x.2.2 ≥ y.2.2 then x :: y :: ys else y :: insertDescG x ys

/-- Stable descending sort of groups by total duration (`partition.rs`,
line 130). -/
def sortDescG (l : List (String × List String × Nat)) : List (String × List String × Nat) :=
  l.foldr insertDescG []

/-- `partition_tests_with_grouping` (`partition.rs`, lines 98-152) for a
present grouping pattern, abstracted by its key function (pattern
compilation errors happen before any of the logic modelled here).  Groups
are sorted descending by total known duration and each whole group is
appended to the currently least-loaded partition. -/
def partition_tests_with_grouping (test_ids : List String)
    (durations : String → Option Nat) (concurrency : Nat) (key : String → String) :
    List (List String) :=
  if concurrency = 0 then []
  else if concurrency = 1 then [test_ids]
  else
    let groups := group_tests test_ids key
    let groupDurations := groups.map (fun g => (g.1, g.2, groupDuration durations g.2))
    let sorted := sortDescG groupDurations
    let init : List (List String × Nat) := List.replicate concurrency ([], 0)
    let final := sorted.foldl
      (fun ps g =>
        let i := minIdx (ps.map (fun q => q.2))
        modifyIdx ps i (fun q => (q.1 ++ g.2.1, q.2 + g.2.2)))
      init
    final.map (fun q => q.1)

/-! ### Declarative partitioner (the specification's wording)

`partitionSpecDecl` re-states §4.2 of the specification: sort the
known-duration ids descending, repeatedly append the next id to the
partition *whose running total duration is currently smallest* — the running
total read off from the partition's contents, not tracked — then deal the
unknown-duration ids round-robin in input order; K=0 yields no partitions,
K=1 the input unchanged.  Claim C6 is the statement that `partition_tests`
computes exactly this. -/

/-- Running total of a partition, recomputed from its members' known
durations as the specification describes it. -/
def runningTotal (durations : String → Option Nat) (part : List String) : Nat :=
  (part.filterMap durations).sum

/-- Declarative greedy phase: the next id goes to the first partition whose
recomputed running total is smallest. -/
def greedySpec (durations : String → Option Nat) (sorted : List (String × Nat))
    (ps : List (List String)) : List (List String) :=
  sorted.foldl
    (fun ps p =>
      let i := minIdx (ps.map (runningTotal durations))
      modifyIdx ps i (fun part => part ++ [p.1]))
    ps

/-- Declarative round-robin phase. -/
def roundRobinSpec (withoutD : List String) (k : Nat) (ps : List (List String)) :
    List (List String) :=
  withoutD.enum.foldl
    (fun ps p => modifyIdx ps (p.1 % k) (fun part => part ++ [p.2]))
    ps

/-- §4.2 of the specification, word for word (ties in the greedy choice go to
the lowest-indexed partition, the scan order of the code). -/
def partitionSpecDecl (test_ids : List String) (durations : String → Option Nat)
    (concurrency : Nat) : List (List String) :=
  if concurrency = 0 then []
  else if concurrency = 1 then [test_ids]
  else
    let withD := test_ids.filterMap (fun id => (durations id).map (fun d => (id, d)))
    let withoutD := test_ids.filter (fun id => (durations id).isNone)
    roundRobinSpec withoutD concurrency
      (greedySpec durations (sortDesc withD) (List.replicate concurrency []))

/-! ### `src/commands/run.rs` — orchestration traces

The claims about the run modes concern the program order of thread joins and
child-process waits.  Each mode is embedded as the sequence of those actions
in source order. -/

/-- The spawn, join and wait actions the orchestrator performs, indexed by
worker. -/
inductive OrchAction where
  | spawnChild (w : Nat)
  | spawnTee (w : Nat)
  | spawnStderr (w : Nat)
  | spawnParse (w : Nat)
  | joinParse (w : Nat)
  | joinTee (w : Nat)
  | joinStderr (w : Nat)
  | waitChild (w : Nat)
  deriving DecidableEq

/-- `RunCommand::run_serial` (`run.rs`, lines 560, 583, 586, 602, 654, 662,
668, 679 in order): the child is spawned, the tee, stderr and parse threads
started, then the process is *waited on first* and the parse, tee and stderr
threads are joined afterwards. -/
def runSerialTrace : List OrchAction :=
  [.spawnChild 0, .spawnTee 0, .spawnStderr 0, .spawnParse 0,
   .waitChild 0, .joinParse 0, .joinTee 0, .joinStderr 0]

/-- `RunCommand::run_parallel` (`run.rs`, lines 831-937 spawn every worker's
process and threads, lines 948-975 join every worker's parse, tee and stderr
threads, lines 995-1001 wait on every worker's process). -/
def runParallelTrace (n : Nat) : List OrchAction :=
  ((List.range n).flatMap fun w => [.spawnChild w, .spawnTee w, .spawnStderr w, .spawnParse w]) ++
  ((List.range n).flatMap fun w => [.joinParse w, .joinTee w, .joinStderr w]) ++
  ((List.range n).map fun w => .waitChild w)

/-- `RunCommand::run_isolated` (`run.rs`, lines 1064-1102): one
`Command::output()` per test, which drains the pipes and waits; no parsing
or tee threads exist in this mode. -/
def runIsolatedTrace (n : Nat) : List OrchAction :=
  (List.range n).flatMap fun w => [.spawnChild w, .waitChild w]

/-- Scan of a trace checking that no parse-thread or tee-thread join of a
worker occurs after the wait on that worker's child process; `waited`
accumulates the workers already waited on. -/
def jbwGo : List OrchAction → List Nat → Bool
  | [], _ => true
  | .waitChild w :: rest, waited => jbwGo rest (w :: waited)
  | .joinParse w :: rest, waited => if w ∈ waited then false else jbwGo rest waited
  | .joinTee w :: rest, waited => if w ∈ waited then false else jbwGo rest waited
  | _ :: rest, waited => jbwGo rest waited

/-- A trace joins all parsing and tee threads of each child before waiting on
that child exactly when no such join appears after the wait. -/
def joinsBeforeWait (tr : List OrchAction) : Bool :=
  jbwGo tr []

/-! ### Derived notions used by the claims -/

/-- The results of a parse, with a failed parse reading as no results. -/
def parseResultsD (items : List StreamItem) : List (TestId × TestResult) :=
  match parseEvents items with
  | .ok rs => rs
  | .error _ => []

/-- An item whose timestamp (if it is an event carrying one) converts. -/
def itemTsOk : StreamItem → Bool
  | .eventItem e => e.timestamp ≠ some SubTimestamp.invalid
  | _ => true

/-- Every event of the stream carries a convertible (or no) timestamp. -/
def tsValid (items : List StreamItem) : Bool :=
  items.all itemTsOk

/-- `tsValid` for an optional file. -/
def optTsValid : Option (List StreamItem) → Bool
  | none => true
  | some items => tsValid items

/-- Mirror of the `consecutive_errors` bookkeeping of `parseGo`: `true` when
the scan never breaks out early (the counter never reaches
`MAX_CONSECUTIVE_ERRORS`, which requires 100 consecutive `Err` items). -/
def noBreakGo : List StreamItem → Nat → Bool
  | [], _ => true
  | .errItem :: rest, ce =>
    if ce + 1 ≥ maxConsecutiveErrors then false else noBreakGo rest (ce + 1)
  | .unknownItem :: rest, _ =>
    if 0 + 1 ≥ maxConsecutiveErrors then false else noBreakGo rest (0 + 1)
  | .bytesItem :: rest, _ => noBreakGo rest 0
  | .eventItem _ :: rest, _ => noBreakGo rest 0

/-- The scan of a stream completes without the early break. -/
def noBreak (items : List StreamItem) : Bool :=
  noBreakGo items 0

/-- Some event of the stream carries this test id with a `Failed` or
`UnexpectedSuccess` status. -/
def hasFailingEvent (items : List StreamItem) (tid : String) : Bool :=
  items.any
    (fun it =>
      match it with
      | .eventItem e => e.test_id == some tid && subunitIsFailure e.status
      | _ => false)

/-- Some event of the stream carries this test id with a terminal status. -/
def hasTerminalEvent (items : List StreamItem) (tid : String) : Bool :=
  items.any
    (fun it =>
      match it with
      | .eventItem e => e.test_id == some tid && (convert_subunit_status e.status).isSome
      | _ => false)

/-- Membership of a test id in the failing artifact produced by the merge
transition: the merge must have succeeded with a retained file whose parse
contains the id. -/
def mergedMemB (old : Option (List StreamItem)) (raw : List StreamItem) (tid : String) : Bool :=
  match update_failing_run_from_raw old raw with
  | .ok (some file) => (alookup (parseResultsD (file.map StreamItem.eventItem)) tid).isSome
  | _ => false

/-- The status round-trip of `write_stream` followed by `parse_stream`:
subunit v2 has no error status, so `Error` comes back as `Failure` and every
other status survives. -/
def rtStatus : TestStatus → TestStatus
  | .error => .failure
  | s => s

/-- The result round-trip of `write_stream` followed by `parse_stream`: the
status via `rtStatus`, the duration truncated to whole seconds (the
in-progress event is written `duration.as_secs()` seconds before the run
timestamp), both message and details set to the original details (the
`traceback` attachment content), and the tags unchanged. -/
def rtTransform (r : TestResult) : TestResult :=
  ⟨r.test_id, rtStatus r.status, r.duration.map (fun d => d / 1000 * 1000),
   r.details, r.details, r.tags⟩

/-- The start-times map after parsing the events written for one result: a
present duration contributes the synthetic start instant, keyed by the test
id. -/
def rtStartTimes (ts : Int) (r : TestResult) (m : List (String × Int)) : List (String × Int) :=
  match r.duration with
  | some d => ains m r.test_id (ts - ((d / 1000 : Nat) : Int) * 1000)
  | none => m

/-- A well-formed run: the result map is keyed by the results' own test ids
(as `add_result` guarantees) with no duplicate keys. -/
def TestRun.wellKeyed (run : TestRun) : Prop :=
  (∀ p ∈ run.results, p.1 = p.2.test_id) ∧ (run.results.map Prod.fst).Nodup

/-! ### Concrete streams and runs used in counterexamples and witnesses -/

/-- An event with just a test id and a status. -/
def bareEvent (tid : String) (s : SubunitStatus) : SubEvent :=
  ⟨some tid, s, none, none, none⟩

/-- C1 counterexample: a run whose only result has status `Error`, duration
1500 ms and one tag. -/
def c1run : TestRun :=
  ⟨"0", 1000000000000, [("t", ⟨"t", TestStatus.error, some 1500, none, none, ["a"]⟩)], []⟩

/-- C1 witness: a well-keyed run with a whole-second duration and details. -/
def c1wrun : TestRun :=
  ⟨"1", 5000000, [("w", ⟨"w", TestStatus.success, some 2000, none, some "log", []⟩)], []⟩

/-- C2 counterexample: a raw stream in which test `t` first fails and then
finally succeeds. -/
def c2raw : List StreamItem :=
  [.eventItem (bareEvent "t" .failed), .eventItem (bareEvent "t" .success)]

/-- C2 witness: a raw stream with one failing and one passing test. -/
def c2wraw : List StreamItem :=
  [.bytesItem, .eventItem (bareEvent "f" .failed), .eventItem (bareEvent "p" .success)]

/-- C3 counterexample: test `t` fails and then finally succeeds, test `u`
fails. -/
def c3raw : List StreamItem :=
  [.eventItem (bareEvent "t" .failed), .eventItem (bareEvent "t" .success),
   .eventItem (bareEvent "u" .failed)]

/-- C3 witness: an existing failing file with tests `x` and `y`, and a
partial run in which `y` passes and `z` fails. -/
def c3wold : Option (List StreamItem) :=
  some [.eventItem (bareEvent "x" .failed), .eventItem (bareEvent "y" .failed)]

/-- The raw stream of the C3 witness run. -/
def c3wraw : List StreamItem :=
  [.eventItem (bareEvent "y" .success), .eventItem (bareEvent "z" .failed)]

/-- C8 counterexample: a well-formed terminal event with an unconvertible
timestamp, 100 consecutive iteration errors, then a fully-formed terminal
event. -/
def c8cex : List StreamItem :=
  .eventItem ⟨some "u", .success, some .invalid, none, none⟩ ::
    (List.replicate 100 .errItem ++
      [.eventItem ⟨some "t", .success, some (.valid 0), none, none⟩])

/-- C8 witness: garbage and interleaved bytes around one terminal event. -/
def c8witems : List StreamItem :=
  [.unknownItem, .bytesItem, .errItem,
   .eventItem ⟨some "p", .success, some (.valid 5), none, none⟩]

/-- C9 input: `u` passes; `t` fails and then finally succeeds. -/
def c9items : List StreamItem :=
  [.eventItem (bareEvent "u" .success), .eventItem (bareEvent "t" .failed),
   .bytesItem, .eventItem (bareEvent "t" .success)]

/-- C9 witness stream: a single failing event for `v` among other items. -/
def c9witems : List StreamItem :=
  [.bytesItem, .eventItem (bareEvent "v" .uxsuccess)]

/-! ## Lemmas about association lists -/

theorem alookup_append {β : Type} (m m2 : List (String × β)) (k : String) :
    alookup (m ++ m2) k = (alookup m k).orElse (fun _ => alookup m2 k) := by
  induction m with
  | nil => simp [alookup]
  | cons p rest ih =>
    by_cases h : p.1 = k <;> simp [alookup, h, ih]

theorem alookup_filter_ne_self {β : Type} (m : List (String × β)) (k : String) :
    alookup (m.filter (fun p => p.1 ≠ k)) k = none := by
  induction m with
  | nil => rfl
  | cons p rest ih =>
    rw [List.filter_cons]
    by_cases h : p.1 = k
    · have hd : decide (p.1 ≠ k) = false := by simp [h]
      rw [hd]
      exact ih
    · have hd : decide (p.1 ≠ k) = true := by simp [h]
      rw [hd]
      simp only [if_true]
      show alookup (p :: _) k = none
      simp only [alookup, if_neg h]
      exact ih

theorem alookup_filter_ne {β : Type} (m : List (String × β)) (k k2 : String) (h : k2 ≠ k) :
    alookup (m.filter (fun p => p.1 ≠ k)) k2 = alookup m k2 := by
  induction m with
  | nil => rfl
  | cons p rest ih =>
    rw [List.filter_cons]
    by_cases h1 : p.1 = k
    · have hd : decide (p.1 ≠ k) = false := by simp [h1]
      have h2 : ¬ p.1 = k2 := by
        intro hc
        exact h (by rw [← hc, h1])
      rw [hd]
      simp only [Bool.false_eq_true, if_false]
      rw [ih]
      simp only [alookup, if_neg h2]
    · have hd : decide (p.1 ≠ k) = true := by simp [h1]
      rw [hd]
      simp only [if_true]
      show alookup (p :: _) k2 = _
      by_cases h2 : p.1 = k2 <;> simp only [alookup, if_pos, if_neg, h2, ih, if_true]

theorem alookup_ains_self {β : Type} (m : List (String × β)) (k : String) (v : β) :
    alookup (ains m k v) k = some v := by
  rw [ains, alookup_append, alookup_filter_ne_self]
  simp [alookup, Option.orElse]

theorem alookup_ains_ne {β : Type} (m : List (String × β)) (k k2 : String) (v : β)
    (h : k2 ≠ k) : alookup (ains m k v) k2 = alookup m k2 := by
  rw [ains, alookup_append, alookup_filter_ne m k k2 h]
  cases hm : alookup m k2 with
  | none => simp [alookup, Option.orElse, Ne.symm h]
  | some v2 => simp [Option.orElse]

theorem alookup_aremove_self {β : Type} (m : List (String × β)) (k : String) :
    alookup (aremove m k) k = none :=
  alookup_filter_ne_self m k

theorem alookup_aremove_ne {β : Type} (m : List (String × β)) (k k2 : String) (h : k2 ≠ k) :
    alookup (aremove m k) k2 = alookup m k2 :=
  alookup_filter_ne m k k2 h

theorem alookup_eq_none_of_forall {β : Type} (m : List (String × β)) (k : String)
    (h : ∀ p ∈ m, p.1 ≠ k) : alookup m k = none := by
  induction m with
  | nil => rfl
  | cons p rest ih =>
    have h1 : p.1 ≠ k := h p (by simp)
    simp only [alookup, if_neg h1]
    exact ih (fun q hq => h q (by simp [hq]))

theorem forall_ne_of_alookup_eq_none {β : Type} (m : List (String × β)) (k : String)
    (h : alookup m k = none) : ∀ p ∈ m, p.1 ≠ k := by
  induction m with
  | nil => simp
  | cons p rest ih =>
    intro q hq
    by_cases h1 : p.1 = k
    · simp [alookup, h1] at h
    · rcases List.mem_cons.mp hq with h2 | h2
      · exact h2 ▸ h1
      · have h3 : alookup rest k = none := by
          simpa [alookup, h1] using h
        exact ih h3 q h2

theorem mem_of_alookup_eq_some {β : Type} (m : List (String × β)) (k : String) (v : β)
    (h : alookup m k = some v) : (k, v) ∈ m := by
  induction m with
  | nil => simp [alookup] at h
  | cons p rest ih =>
    by_cases h1 : p.1 = k
    · simp only [alookup, if_pos h1] at h
      obtain ⟨a, b⟩ := p
      obtain rfl : b = v := by injection h
      obtain rfl : a = k := h1
      exact List.mem_cons_self _ _
    · simp only [alookup, if_neg h1] at h
      exact List.mem_cons_of_mem _ (ih h)

theorem ains_eq_append {β : Type} (m : List (String × β)) (k : String) (v : β)
    (h : alookup m k = none) : ains m k v = m ++ [(k, v)] := by
  have h2 : m.filter (fun p => p.1 ≠ k) = m := by
    apply List.filter_eq_self.mpr
    intro p hp
    have := forall_ne_of_alookup_eq_none m k h p hp
    simpa using this
  rw [ains, h2]


/-! ## Lemmas about the parse loop -/

theorem processEvent_ce (st : ParseState) (e : SubEvent) (st2 : ParseState)
    (h : processEvent st e = .ok st2) : st2.consecutiveErrors = 0 := by
  unfold processEvent at h
  rcases e with ⟨tidOpt, status, tsOpt, tags, file⟩
  cases tidOpt with
  | none =>
    simp only at h
    injection h with h
    rw [← h]
  | some tid =>
    simp only at h
    by_cases hs : status = SubunitStatus.inProgress
    · rw [if_pos hs] at h
      cases tsOpt with
      | none =>
        injection h with h
        rw [← h]
      | some ts =>
        cases ts with
        | valid ms =>
          simp only [convert_timestamp] at h
          injection h with h
          rw [← h]
        | invalid =>
          simp only [convert_timestamp] at h
          cases h
    · rw [if_neg hs] at h
      cases hcv : convert_subunit_status status with
      | none =>
        rw [hcv] at h
        injection h with h
        rw [← h]
      | some s =>
        rw [hcv] at h
        simp only at h
        cases hst : alookup st.startTimes tid with
        | none =>
          rw [hst] at h
          simp only at h
          injection h with h
          rw [← h]
        | some t0 =>
          rw [hst] at h
          cases tsOpt with
          | none =>
            simp only at h
            injection h with h
            rw [← h]
          | some ts =>
            cases ts with
            | valid ms =>
              simp only [convert_timestamp] at h
              injection h with h
              rw [← h]
            | invalid =>
              simp only [convert_timestamp] at h
              cases h


theorem processEvent_results_spec (st : ParseState) (e : SubEvent) (st2 : ParseState)
    (h : processEvent st e = .ok st2) :
    (match e.test_id, convert_subunit_status e.status with
     | some tid, some _ => ∃ r, r.test_id = tid ∧ st2.results = ains st.results tid r
     | _, _ => st2.results = st.results) := by
  unfold processEvent at h
  rcases e with ⟨tidOpt, status, tsOpt, tags, file⟩
  cases tidOpt with
  | none =>
    simp only at h ⊢
    injection h with h
    rw [← h]
  | some tid =>
    simp only at h ⊢
    by_cases hs : status = SubunitStatus.inProgress
    · rw [if_pos hs] at h
      subst hs
      simp only [convert_subunit_status]
      cases tsOpt with
      | none =>
        injection h with h
        rw [← h]
      | some ts =>
        cases ts with
        | valid ms =>
          simp only [convert_timestamp] at h
          injection h with h
          rw [← h]
        | invalid =>
          simp only [convert_timestamp] at h
          cases h
    · rw [if_neg hs] at h
      cases hcv : convert_subunit_status status with
      | none =>
        rw [hcv] at h
        injection h with h
        rw [← h]
      | some s =>
        rw [hcv] at h
        simp only at h ⊢
        cases hst : alookup st.startTimes tid with
        | none =>
          rw [hst] at h
          simp only at h
          injection h with h
          exact ⟨_, rfl, by rw [← h]⟩
        | some t0 =>
          rw [hst] at h
          cases tsOpt with
          | none =>
            simp only at h
            injection h with h
            exact ⟨_, rfl, by rw [← h]⟩
          | some ts =>
            cases ts with
            | valid ms =>
              simp only [convert_timestamp] at h
              injection h with h
              exact ⟨_, rfl, by rw [← h]⟩
            | invalid =>
              simp only [convert_timestamp] at h
              cases h

theorem processEvent_ok_of_tsOk (st : ParseState) (e : SubEvent)
    (h : e.timestamp ≠ some SubTimestamp.invalid) :
    ∃ st2, processEvent st e = .ok st2 := by
  unfold processEvent
  rcases e with ⟨tidOpt, status, tsOpt, tags, file⟩
  simp only at h
  cases tidOpt with
  | none => exact ⟨_, rfl⟩
  | some tid =>
    simp only
    by_cases hs : status = SubunitStatus.inProgress
    · rw [if_pos hs]
      cases tsOpt with
      | none => exact ⟨_, rfl⟩
      | some ts =>
        cases ts with
        | valid ms => exact ⟨_, rfl⟩
        | invalid => exact absurd rfl h
    · rw [if_neg hs]
      cases hcv : convert_subunit_status status with
      | none => exact ⟨_, rfl⟩
      | some s =>
        simp only
        cases hst : alookup st.startTimes tid with
        | none => exact ⟨_, rfl⟩
        | some t0 =>
          cases tsOpt with
          | none => exact ⟨_, rfl⟩
          | some ts =>
            cases ts with
            | valid ms => exact ⟨_, rfl⟩
            | invalid => exact absurd rfl h


theorem alookup_ains_isSome {β : Type} (m : List (String × β)) (k k2 : String) (v : β)
    (h : (alookup m k2).isSome) : (alookup (ains m k v) k2).isSome := by
  by_cases he : k2 = k
  · subst he
    rw [alookup_ains_self]
    rfl
  · rw [alookup_ains_ne m k k2 v he]
    exact h

theorem processEvent_results_mono (st : ParseState) (e : SubEvent) (st2 : ParseState)
    (h : processEvent st e = .ok st2) (tid : String)
    (h2 : (alookup st.results tid).isSome) : (alookup st2.results tid).isSome := by
  have hs := processEvent_results_spec st e st2 h
  cases hid : e.test_id with
  | none =>
    rw [hid] at hs
    simp only at hs
    rw [hs]
    exact h2
  | some tid2 =>
    rw [hid] at hs
    cases hcv : convert_subunit_status e.status with
    | none =>
      rw [hcv] at hs
      simp only at hs
      rw [hs]
      exact h2
    | some s =>
      rw [hcv] at hs
      obtain ⟨r, _, hr⟩ := hs
      rw [hr]
      exact alookup_ains_isSome _ _ _ _ h2

theorem processEvent_results_sound (st : ParseState) (e : SubEvent) (st2 : ParseState)
    (h : processEvent st e = .ok st2) (tid : String)
    (h2 : (alookup st2.results tid).isSome) :
    (alookup st.results tid).isSome ∨
      (e.test_id = some tid ∧ (convert_subunit_status e.status).isSome) := by
  have hs := processEvent_results_spec st e st2 h
  cases hid : e.test_id with
  | none =>
    rw [hid] at hs
    simp only at hs
    rw [hs] at h2
    exact Or.inl h2
  | some tid2 =>
    rw [hid] at hs
    cases hcv : convert_subunit_status e.status with
    | none =>
      rw [hcv] at hs
      simp only at hs
      rw [hs] at h2
      exact Or.inl h2
    | some s =>
      rw [hcv] at hs
      obtain ⟨r, _, hr⟩ := hs
      rw [hr] at h2
      by_cases he : tid = tid2
      · exact Or.inr ⟨congrArg some he.symm, rfl⟩
      · rw [alookup_ains_ne _ _ _ _ he] at h2
        exact Or.inl h2

theorem processEvent_results_insert (st : ParseState) (e : SubEvent) (st2 : ParseState)
    (h : processEvent st e = .ok st2) (tid : String)
    (hid : e.test_id = some tid) (hterm : (convert_subunit_status e.status).isSome) :
    (alookup st2.results tid).isSome := by
  have hs := processEvent_results_spec st e st2 h
  rw [hid] at hs
  cases hcv : convert_subunit_status e.status with
  | none =>
    rw [hcv] at hterm
    cases hterm
  | some s =>
    rw [hcv] at hs
    obtain ⟨r, _, hr⟩ := hs
    rw [hr, alookup_ains_self]
    rfl

/-! ## Lemmas about the `parseGo` scan -/

theorem parseGo_ok_of_tsValid (items : List StreamItem) (st : ParseState)
    (h : tsValid items = true) : ∃ st2, parseGo items st = .ok st2 := by
  induction items generalizing st with
  | nil => exact ⟨st, rfl⟩
  | cons it rest ih =>
    have hrest : tsValid rest = true := by
      simp only [tsValid, List.all_cons, Bool.and_eq_true] at h
      exact h.2
    have hit : itemTsOk it = true := by
      simp only [tsValid, List.all_cons, Bool.and_eq_true] at h
      exact h.1
    cases it with
    | errItem =>
      simp only [parseGo]
      by_cases hc : st.consecutiveErrors + 1 ≥ maxConsecutiveErrors
      · rw [if_pos hc]
        exact ⟨st, rfl⟩
      · rw [if_neg hc]
        exact ih _ hrest
    | unknownItem =>
      simp only [parseGo]
      by_cases hc : 0 + 1 ≥ maxConsecutiveErrors
      · rw [if_pos hc]
        exact ⟨st, rfl⟩
      · rw [if_neg hc]
        exact ih _ hrest
    | bytesItem =>
      simp only [parseGo]
      exact ih _ hrest
    | eventItem e =>
      have hok : e.timestamp ≠ some SubTimestamp.invalid := by
        simpa [itemTsOk] using hit
      obtain ⟨st1, hst1⟩ := processEvent_ok_of_tsOk st e hok
      simp only [parseGo, hst1]
      exact ih _ hrest

theorem parseGo_results_mono (items : List StreamItem) (st st2 : ParseState)
    (h : parseGo items st = .ok st2) (tid : String)
    (h2 : (alookup st.results tid).isSome) : (alookup st2.results tid).isSome := by
  induction items generalizing st with
  | nil =>
    injection h with h
    rw [← h]
    exact h2
  | cons it rest ih =>
    cases it with
    | errItem =>
      simp only [parseGo] at h
      by_cases hc : st.consecutiveErrors + 1 ≥ maxConsecutiveErrors
      · rw [if_pos hc] at h
        injection h with h
        rw [← h]
        exact h2
      · rw [if_neg hc] at h
        exact ih _ h h2
    | unknownItem =>
      simp only [parseGo] at h
      by_cases hc : 0 + 1 ≥ maxConsecutiveErrors
      · rw [if_pos hc] at h
        injection h with h
        rw [← h]
        exact h2
      · rw [if_neg hc] at h
        exact ih _ h h2
    | bytesItem =>
      simp only [parseGo] at h
      exact ih _ h h2
    | eventItem e =>
      simp only [parseGo] at h
      cases hpe : processEvent st e with
      | ok st1 =>
        rw [hpe] at h
        simp only at h
        exact ih _ h (processEvent_results_mono st e st1 hpe tid h2)
      | error m =>
        rw [hpe] at h
        simp only at h
        cases h

theorem parseGo_results_sound (items : List StreamItem) (st st2 : ParseState)
    (h : parseGo items st = .ok st2) (tid : String)
    (h2 : (alookup st2.results tid).isSome) :
    (alookup st.results tid).isSome ∨
      ∃ e, StreamItem.eventItem e ∈ items ∧ e.test_id = some tid ∧
        (convert_subunit_status e.status).isSome := by
  induction items generalizing st with
  | nil =>
    injection h with h
    rw [h]
    exact Or.inl h2
  | cons it rest ih =>
    cases it with
    | errItem =>
      simp only [parseGo] at h
      by_cases hc : st.consecutiveErrors + 1 ≥ maxConsecutiveErrors
      · rw [if_pos hc] at h
        injection h with h
        rw [h]
        exact Or.inl h2
      · rw [if_neg hc] at h
        rcases ih _ h with h3 | ⟨e, he, h4, h5⟩
        · exact Or.inl h3
        · exact Or.inr ⟨e, List.mem_cons_of_mem _ he, h4, h5⟩
    | unknownItem =>
      simp only [parseGo] at h
      by_cases hc : 0 + 1 ≥ maxConsecutiveErrors
      · rw [if_pos hc] at h
        injection h with h
        rw [h]
        exact Or.inl h2
      · rw [if_neg hc] at h
        rcases ih _ h with h3 | ⟨e, he, h4, h5⟩
        · exact Or.inl h3
        · exact Or.inr ⟨e, List.mem_cons_of_mem _ he, h4, h5⟩
    | bytesItem =>
      simp only [parseGo] at h
      rcases ih _ h with h3 | ⟨e, he, h4, h5⟩
      · exact Or.inl h3
      · exact Or.inr ⟨e, List.mem_cons_of_mem _ he, h4, h5⟩
    | eventItem e0 =>
      simp only [parseGo] at h
      cases hpe : processEvent st e0 with
      | ok st1 =>
        rw [hpe] at h
        simp only at h
        rcases ih _ h with h3 | ⟨e, he, h4, h5⟩
        · rcases processEvent_results_sound st e0 st1 hpe tid h3 with h6 | ⟨h6, h7⟩
          · exact Or.inl h6
          · exact Or.inr ⟨e0, List.mem_cons_self _ _, h6, h7⟩
        · exact Or.inr ⟨e, List.mem_cons_of_mem _ he, h4, h5⟩
      | error m =>
        rw [hpe] at h
        simp only at h
        cases h

theorem parseGo_results_complete (items : List StreamItem) (st st2 : ParseState)
    (h : parseGo items st = .ok st2)
    (hnb : noBreakGo items st.consecutiveErrors = true)
    (e : SubEvent) (tid : String) (hmem : StreamItem.eventItem e ∈ items)
    (hid : e.test_id = some tid) (hterm : (convert_subunit_status e.status).isSome) :
    (alookup st2.results tid).isSome := by
  induction items generalizing st with
  | nil => cases hmem
  | cons it rest ih =>
    cases it with
    | errItem =>
      simp only [parseGo] at h
      simp only [noBreakGo] at hnb
      by_cases hc : st.consecutiveErrors + 1 ≥ maxConsecutiveErrors
      · rw [if_pos hc] at hnb
        cases hnb
      · rw [if_neg hc] at h hnb
        have hmem2 : StreamItem.eventItem e ∈ rest := by
          rcases List.mem_cons.mp hmem with h3 | h3
          · cases h3
          · exact h3
        exact ih _ h hnb hmem2
    | unknownItem =>
      simp only [parseGo] at h
      simp only [noBreakGo] at hnb
      by_cases hc : 0 + 1 ≥ maxConsecutiveErrors
      · rw [if_pos hc] at hnb
        cases hnb
      · rw [if_neg hc] at h hnb
        have hmem2 : StreamItem.eventItem e ∈ rest := by
          rcases List.mem_cons.mp hmem with h3 | h3
          · cases h3
          · exact h3
        exact ih _ h hnb hmem2
    | bytesItem =>
      simp only [parseGo] at h
      simp only [noBreakGo] at hnb
      have hmem2 : StreamItem.eventItem e ∈ rest := by
        rcases List.mem_cons.mp hmem with h3 | h3
        · cases h3
        · exact h3
      exact ih _ h hnb hmem2
    | eventItem e0 =>
      simp only [parseGo] at h
      simp only [noBreakGo] at hnb
      cases hpe : processEvent st e0 with
      | ok st1 =>
        rw [hpe] at h
        simp only at h
        have hce : st1.consecutiveErrors = 0 := processEvent_ce st e0 st1 hpe
        rcases List.mem_cons.mp hmem with h3 | h3
        · have he0 : e = e0 := by injection h3
          subst he0
          have hins := processEvent_results_insert st e st1 hpe tid hid hterm
          exact parseGo_results_mono rest st1 st2 h tid hins
        · exact ih _ h (by rw [hce]; exact hnb) h3
      | error m =>
        rw [hpe] at h
        simp only at h
        cases h

theorem noBreakGo_eventItems (evs : List SubEvent) (ce : Nat) :
    noBreakGo (evs.map StreamItem.eventItem) ce = true := by
  induction evs generalizing ce with
  | nil => rfl
  | cons e rest ih =>
    simp only [List.map_cons, noBreakGo]
    exact ih 0


/-! ## Round-trip lemmas (`write_stream` then `parse_stream`) -/

theorem parseGo_eventItems_append (evs : List SubEvent) (ys : List StreamItem)
    (st : ParseState) :
    parseGo (evs.map StreamItem.eventItem ++ ys) st =
      match parseGo (evs.map StreamItem.eventItem) st with
      | .ok st2 => parseGo ys st2
      | .error m => .error m := by
  induction evs generalizing st with
  | nil => simp [parseGo]
  | cons e rest ih =>
    simp only [List.map_cons, List.cons_append, parseGo]
    cases processEvent st e with
    | ok st2 =>
      simp only
      exact ih st2
    | error m => rfl

theorem toSubunit_ne_inProgress (s : TestStatus) :
    TestStatus.toSubunit s ≠ SubunitStatus.inProgress := by
  cases s <;> simp [TestStatus.toSubunit]

theorem convert_toSubunit (s : TestStatus) :
    convert_subunit_status (TestStatus.toSubunit s) = some (rtStatus s) := by
  cases s <;> rfl

theorem tags_getD_round (tags : List String) :
    (if tags.isEmpty then none else some tags).getD [] = tags := by
  cases tags <;> simp

theorem md_round (details : Option String) :
    (match details.map (fun d => ("traceback", d)) with
     | some nc => (some nc.2, some nc.2)
     | none => (none, (none : Option String))) = (details, details) := by
  cases details <;> rfl


theorem tags_getD_round2 (tags : List String) :
    (if tags = [] then none else some tags).getD [] = tags := by
  cases tags <;> simp

theorem parse_writeResult (ts : Int) (r : TestResult) (st : ParseState)
    (hstart : alookup st.startTimes r.test_id = none) :
    parseGo ((writeResultEvents ts r).map StreamItem.eventItem) st =
      .ok ⟨ains st.results r.test_id (rtTransform r), rtStartTimes ts r st.startTimes, 0⟩ := by
  rcases r with ⟨tid, status, duration, message, details, tags⟩
  simp only at hstart
  cases duration with
  | none =>
    simp only [writeResultEvents, List.nil_append, List.map_cons, List.map_nil, parseGo]
    unfold processEvent
    simp [toSubunit_ne_inProgress status, convert_toSubunit, hstart, rtTransform, rtStartTimes]
    cases details <;> simp [tags_getD_round2]
  | some d =>
    have hpos2 : (0 : Int) ≤ (d : Int) / 1000 := by positivity
    have htn2 : ((d : Int) / 1000 * 1000).toNat = d / 1000 * 1000 := by
      rw [show ((d : Int) / 1000 * 1000) = ((d / 1000 * 1000 : Nat) : Int) by
        push_cast
        ring]
      exact Int.toNat_natCast _
    have harith : ts - (ts - ((d / 1000 : Nat) : Int) * 1000) =
        ((d / 1000 : Nat) : Int) * 1000 := sub_sub_cancel ts _
    simp only [writeResultEvents, List.cons_append, List.nil_append, List.map_cons,
      List.map_nil, parseGo]
    unfold processEvent
    simp [toSubunit_ne_inProgress status, convert_toSubunit, alookup_ains_self,
      convert_timestamp, harith, rtTransform, rtStartTimes]
    cases details <;> simp [tags_getD_round2, hpos2, htn2]


theorem roundtrip_aux (ts : Int) (rs : List (TestId × TestResult)) (st : ParseState)
    (hkey : ∀ p ∈ rs, p.1 = p.2.test_id)
    (hnd : (rs.map Prod.fst).Nodup)
    (hstart : ∀ p ∈ rs, alookup st.startTimes p.1 = none)
    (hres : ∀ p ∈ rs, alookup st.results p.1 = none) :
    ∃ st2,
      parseGo ((rs.flatMap (fun p => writeResultEvents ts p.2)).map StreamItem.eventItem) st =
        .ok st2 ∧
      st2.results = st.results ++ rs.map (fun p => (p.1, rtTransform p.2)) := by
  induction rs generalizing st with
  | nil => exact ⟨st, rfl, by simp⟩
  | cons p rest ih =>
    have hkeyp : p.1 = p.2.test_id := hkey p (List.mem_cons_self _ _)
    have hstartp : alookup st.startTimes p.2.test_id = none := by
      rw [← hkeyp]
      exact hstart p (List.mem_cons_self _ _)
    have hresp : alookup st.results p.2.test_id = none := by
      rw [← hkeyp]
      exact hres p (List.mem_cons_self _ _)
    have hnotin : p.1 ∉ rest.map Prod.fst := by
      simp only [List.map_cons, List.nodup_cons] at hnd
      exact hnd.1
    have hndrest : (rest.map Prod.fst).Nodup := by
      simp only [List.map_cons, List.nodup_cons] at hnd
      exact hnd.2
    have hne : ∀ q ∈ rest, q.1 ≠ p.2.test_id := by
      intro q hq
      rw [← hkeyp]
      intro hc
      exact hnotin (hc ▸ List.mem_map_of_mem Prod.fst hq)
    set st1 : ParseState :=
      ⟨ains st.results p.2.test_id (rtTransform p.2), rtStartTimes ts p.2 st.startTimes, 0⟩
      with hst1
    have hstart1 : ∀ q ∈ rest, alookup st1.startTimes q.1 = none := by
      intro q hq
      rw [hst1]
      simp only
      unfold rtStartTimes
      cases hd : p.2.duration with
      | none => exact hstart q (List.mem_cons_of_mem _ hq)
      | some d =>
        rw [alookup_ains_ne _ _ _ _ (hne q hq)]
        exact hstart q (List.mem_cons_of_mem _ hq)
    have hres1 : ∀ q ∈ rest, alookup st1.results q.1 = none := by
      intro q hq
      rw [hst1]
      simp only
      rw [alookup_ains_ne _ _ _ _ (hne q hq)]
      exact hres q (List.mem_cons_of_mem _ hq)
    obtain ⟨st2, hp2, hr2⟩ := ih st1 (fun q hq => hkey q (List.mem_cons_of_mem _ hq))
      hndrest hstart1 hres1
    refine ⟨st2, ?_, ?_⟩
    · rw [List.flatMap_cons, List.map_append, parseGo_eventItems_append,
        parse_writeResult ts p.2 st hstartp]
      exact hp2
    · rw [hr2, hst1]
      simp only
      rw [ains_eq_append _ _ _ hresp, List.map_cons, ← hkeyp]
      simp [List.append_assoc]

/-- Claim C1 (amended): parsing the events written for a well-keyed run
yields exactly the original result map transformed per-result by
`rtTransform`: same ids, same tags, `Error` becomes `Failure` and every
other status is preserved, durations truncated to whole seconds, and
message/details both set to the original details. -/
theorem write_parse_roundtrip_amended (run : TestRun) (h : run.wellKeyed) :
    parseEvents (writeItems run) = .ok (run.results.map (fun p => (p.1, rtTransform p.2))) := by
  obtain ⟨hkey, hnd⟩ := h
  obtain ⟨st2, hp, hres⟩ := roundtrip_aux run.timestamp run.results ⟨[], [], 0⟩ hkey hnd
    (fun p _ => rfl) (fun p _ => rfl)
  unfold parseEvents writeItems write_stream
  rw [hp]
  simp only [Except.map]
  rw [hres]
  simp


/-- Claim C1 (counterexample to the claim as stated): the run `c1run` has one
result with status `Error`, duration 1500 ms and tag `a`; the parse of its
written stream yields status `Failure` (not `Error`) and duration 1000 ms,
which is not within millisecond rounding of 1500 ms. -/
theorem write_parse_roundtrip_counterexample :
    parse_stream (writeItems c1run) "1" =
        .ok ⟨"1", 0, [("t", ⟨"t", TestStatus.failure, some 1000, none, none, ["a"]⟩)], []⟩ ∧
      alookup c1run.results "t" =
        some ⟨"t", TestStatus.error, some 1500, none, none, ["a"]⟩ ∧
      TestStatus.failure ≠ TestStatus.error ∧ ¬ ((1500 - 1000 : Nat) ≤ 1) :=
  ⟨rfl, rfl, by decide, by decide⟩

/-- Witness for C1: the amended round-trip theorem applied to the concrete
well-keyed run `c1wrun`. -/
theorem write_parse_roundtrip_amended_witness :
    parseEvents (writeItems c1wrun) =
      .ok (c1wrun.results.map (fun p => (p.1, rtTransform p.2))) :=
  write_parse_roundtrip_amended c1wrun ⟨by decide, by decide⟩


/-! ## Lemmas about the orchestration traces -/

theorem jbwGo_spawn_block (xs ys : List OrchAction) (waited : List Nat)
    (h : ∀ a ∈ xs, (∃ w, a = OrchAction.spawnChild w) ∨ (∃ w, a = OrchAction.spawnTee w) ∨
      (∃ w, a = OrchAction.spawnStderr w) ∨ (∃ w, a = OrchAction.spawnParse w)) :
    jbwGo (xs ++ ys) waited = jbwGo ys waited := by
  induction xs with
  | nil => rfl
  | cons a rest ih =>
    have ha := h a (List.mem_cons_self _ _)
    have hrest := fun b hb => h b (List.mem_cons_of_mem _ hb)
    rcases ha with ⟨w, rfl⟩ | ⟨w, rfl⟩ | ⟨w, rfl⟩ | ⟨w, rfl⟩ <;>
      simpa [jbwGo] using ih hrest

theorem jbwGo_join_block (xs ys : List OrchAction)
    (h : ∀ a ∈ xs, (∃ w, a = OrchAction.joinParse w) ∨ (∃ w, a = OrchAction.joinTee w) ∨
      (∃ w, a = OrchAction.joinStderr w)) :
    jbwGo (xs ++ ys) [] = jbwGo ys [] := by
  induction xs with
  | nil => rfl
  | cons a rest ih =>
    have ha := h a (List.mem_cons_self _ _)
    have hrest := fun b hb => h b (List.mem_cons_of_mem _ hb)
    rcases ha with ⟨w, rfl⟩ | ⟨w, rfl⟩ | ⟨w, rfl⟩ <;>
      simpa [jbwGo] using ih hrest

theorem jbwGo_no_joins (xs : List OrchAction) (waited : List Nat)
    (h : ∀ a ∈ xs, ∀ w, a ≠ OrchAction.joinParse w ∧ a ≠ OrchAction.joinTee w) :
    jbwGo xs waited = true := by
  induction xs generalizing waited with
  | nil => rfl
  | cons a rest ih =>
    have ha := h a (List.mem_cons_self _ _)
    have hrest := fun b hb => h b (List.mem_cons_of_mem _ hb)
    cases a with
    | joinParse w => exact absurd rfl (ha w).1
    | joinTee w => exact absurd rfl (ha w).2
    | waitChild w =>
      simp only [jbwGo]
      exact ih _ hrest
    | spawnChild w =>
      simp only [jbwGo]
      exact ih _ hrest
    | spawnTee w =>
      simp only [jbwGo]
      exact ih _ hrest
    | spawnStderr w =>
      simp only [jbwGo]
      exact ih _ hrest
    | spawnParse w =>
      simp only [jbwGo]
      exact ih _ hrest
    | joinStderr w =>
      simp only [jbwGo]
      exact ih _ hrest

/-- Claim C4 (counterexample to the claim as stated): `run_serial` spawns its
parse and tee threads, then waits on the child process *before* joining
them, so the join-before-wait ordering fails in serial mode. -/
theorem join_before_wait_counterexample :
    joinsBeforeWait runSerialTrace = false ∧
      OrchAction.waitChild 0 ∈ runSerialTrace ∧
      OrchAction.joinParse 0 ∈ runSerialTrace ∧
      OrchAction.joinTee 0 ∈ runSerialTrace :=
  ⟨rfl, by decide, by decide, by decide⟩

/-- Claim C4 (amended): in parallel mode every worker's parse and tee thread
is joined before any child process is waited on, and isolated mode has no
parse or tee threads to join; in serial mode, however, the orchestrator
waits on the child process first and joins the parse and tee threads only
afterwards (the threads keep draining stdout concurrently, so the wait does
not stall the pipe). -/
theorem join_before_wait_amended :
    (∀ n, joinsBeforeWait (runParallelTrace n) = true) ∧
      (∀ n, joinsBeforeWait (runIsolatedTrace n) = true) ∧
      joinsBeforeWait runSerialTrace = false := by
  refine ⟨?_, ?_, rfl⟩
  · intro n
    unfold joinsBeforeWait runParallelTrace
    rw [List.append_assoc, jbwGo_spawn_block]
    · rw [jbwGo_join_block]
      · apply jbwGo_no_joins
        intro a ha w
        simp only [List.mem_map] at ha
        obtain ⟨w2, _, rfl⟩ := ha
        exact ⟨by simp, by simp⟩
      · intro a ha
        simp only [List.mem_flatMap] at ha
        obtain ⟨w2, _, hw⟩ := ha
        simp only [List.mem_cons, List.not_mem_nil, or_false] at hw
        rcases hw with rfl | rfl | rfl
        · exact Or.inl ⟨w2, rfl⟩
        · exact Or.inr (Or.inl ⟨w2, rfl⟩)
        · exact Or.inr (Or.inr ⟨w2, rfl⟩)
    · intro a ha
      simp only [List.mem_flatMap] at ha
      obtain ⟨w2, _, hw⟩ := ha
      simp only [List.mem_cons, List.not_mem_nil, or_false] at hw
      rcases hw with rfl | rfl | rfl | rfl
      · exact Or.inl ⟨w2, rfl⟩
      · exact Or.inr (Or.inl ⟨w2, rfl⟩)
      · exact Or.inr (Or.inr (Or.inl ⟨w2, rfl⟩))
      · exact Or.inr (Or.inr (Or.inr ⟨w2, rfl⟩))
  · intro n
    apply jbwGo_no_joins
    intro a ha w
    simp only [runIsolatedTrace, List.mem_flatMap] at ha
    obtain ⟨w2, _, hw⟩ := ha
    simp only [List.mem_cons, List.not_mem_nil, or_false] at hw
    rcases hw with rfl | rfl
    · exact ⟨by simp, by simp⟩
    · exact ⟨by simp, by simp⟩


/-! ## Lemmas about the partitioner -/

theorem modifyIdx_length {α : Type} (l : List α) (i : Nat) (f : α → α) :
    (modifyIdx l i f).length = l.length := by
  induction l generalizing i with
  | nil => rfl
  | cons x xs ih =>
    cases i with
    | zero => rfl
    | succ j => simp [modifyIdx, ih]

theorem mem_modifyIdx {α : Type} (l : List α) (i : Nat) (f : α → α) (q : α)
    (h : q ∈ modifyIdx l i f) : q ∈ l ∨ ∃ x ∈ l, q = f x := by
  induction l generalizing i with
  | nil => cases h
  | cons x xs ih =>
    cases i with
    | zero =>
      rcases List.mem_cons.mp h with h2 | h2
      · exact Or.inr ⟨x, List.mem_cons_self _ _, h2⟩
      · exact Or.inl (List.mem_cons_of_mem _ h2)
    | succ j =>
      rcases List.mem_cons.mp h with h2 | h2
      · exact Or.inl (h2 ▸ List.mem_cons_self _ _)
      · rcases ih j h2 with h3 | ⟨y, hy, h3⟩
        · exact Or.inl (List.mem_cons_of_mem _ h3)
        · exact Or.inr ⟨y, List.mem_cons_of_mem _ hy, h3⟩

theorem modifyIdx_map {α β : Type} (l : List α) (i : Nat) (g : α → α) (f : α → β)
    (g2 : β → β) (hc : ∀ x, f (g x) = g2 (f x)) :
    (modifyIdx l i g).map f = modifyIdx (l.map f) i g2 := by
  induction l generalizing i with
  | nil => rfl
  | cons x xs ih =>
    cases i with
    | zero => simp [modifyIdx, hc]
    | succ j => simp [modifyIdx, ih]

theorem minIdxGo_lt (ds : List Nat) (bi bd i : Nat) (h : bi < i) :
    minIdxGo ds bi bd i < i + ds.length := by
  induction ds generalizing bi bd i with
  | nil => simpa [minIdxGo] using h
  | cons d rest ih =>
    simp only [minIdxGo, List.length_cons]
    by_cases hc : d < bd
    · rw [if_pos hc]
      have := ih i d (i + 1) (Nat.lt_succ_self i)
      omega
    · rw [if_neg hc]
      have := ih bi bd (i + 1) (Nat.lt_succ_of_lt h)
      omega

theorem minIdx_lt (l : List Nat) (h : l ≠ []) : minIdx l < l.length := by
  cases l with
  | nil => exact absurd rfl h
  | cons d ds =>
    have := minIdxGo_lt ds 0 d 1 Nat.zero_lt_one
    simp only [minIdx, List.length_cons]
    omega

theorem insertDesc_perm (x : String × Nat) (l : List (String × Nat)) :
    (insertDesc x l).Perm (x :: l) := by
  induction l with
  | nil => exact List.Perm.refl _
  | cons y ys ih =>
    simp only [insertDesc]
    by_cases hc : x.2 ≥ y.2
    · rw [if_pos hc]
    · rw [if_neg hc]
      exact (List.Perm.cons y ih).trans (List.Perm.swap x y ys)

theorem sortDesc_perm (l : List (String × Nat)) : (sortDesc l).Perm l := by
  induction l with
  | nil => exact List.Perm.refl _
  | cons x xs ih =>
    have : sortDesc (x :: xs) = insertDesc x (sortDesc xs) := rfl
    rw [this]
    exact (insertDesc_perm x (sortDesc xs)).trans (List.Perm.cons x ih)

theorem greedyAssign_length (sorted : List (String × Nat)) (ps : List (List String × Nat)) :
    (greedyAssign sorted ps).length = ps.length := by
  induction sorted generalizing ps with
  | nil => rfl
  | cons p rest ih =>
    show (greedyAssign rest _).length = _
    rw [ih, modifyIdx_length]

theorem rrFold_length (exs : List (Nat × String)) (k : Nat) (ps : List (List String × Nat)) :
    (exs.foldl (fun ps p => modifyIdx ps (p.1 % k) (fun q => (q.1 ++ [p.2], q.2))) ps).length =
      ps.length := by
  induction exs generalizing ps with
  | nil => rfl
  | cons p rest ih =>
    simp only [List.foldl_cons]
    rw [ih, modifyIdx_length]

theorem partition_tests_length (test_ids : List String) (durations : String → Option Nat)
    (concurrency : Nat) :
    (partition_tests test_ids durations concurrency).length = concurrency := by
  unfold partition_tests
  by_cases h0 : concurrency = 0
  · simp [h0]
  · rw [if_neg h0]
    by_cases h1 : concurrency = 1
    · simp [h1]
    · rw [if_neg h1]
      simp only [List.length_map]
      rw [roundRobinAssign, rrFold_length, greedyAssign_length, List.length_replicate]

/-- Claim C10: `partition_tests` returns exactly `concurrency` partitions for
every input (the empty input included), empty partitions being returned as
empty lists rather than omitted; zero workers yield zero partitions. -/
theorem partition_count_exact (test_ids : List String) (durations : String → Option Nat)
    (concurrency : Nat) :
    (partition_tests test_ids durations concurrency).length = concurrency :=
  partition_tests_length test_ids durations concurrency


theorem runningTotal_append_one (durations : String → Option Nat) (l : List String)
    (a : String) (d : Nat) (h : durations a = some d) :
    runningTotal durations (l ++ [a]) = runningTotal durations l + d := by
  unfold runningTotal
  rw [List.filterMap_append, List.sum_append]
  simp [List.filterMap_cons, h]

theorem mem_withD (test_ids : List String) (durations : String → Option Nat)
    (p : String × Nat)
    (h : p ∈ test_ids.filterMap (fun id => (durations id).map (fun d => (id, d)))) :
    durations p.1 = some p.2 := by
  rw [List.mem_filterMap] at h
  obtain ⟨a, _, ha⟩ := h
  cases hd : durations a with
  | none => rw [hd] at ha; cases ha
  | some d =>
    rw [hd] at ha
    obtain rfl : (a, d) = p := by
      simpa using ha
    exact hd

theorem greedy_eq_spec (durations : String → Option Nat) (sorted : List (String × Nat))
    (ps : List (List String × Nat))
    (hdur : ∀ p ∈ sorted, durations p.1 = some p.2)
    (hinv : ∀ q ∈ ps, q.2 = runningTotal durations q.1) :
    (greedyAssign sorted ps).map (fun q => q.1) =
      greedySpec durations sorted (ps.map (fun q => q.1)) := by
  induction sorted generalizing ps with
  | nil => rfl
  | cons p rest ih =>
    have hdurp : durations p.1 = some p.2 := hdur p (List.mem_cons_self _ _)
    have hmins : ps.map (fun q => q.2) =
        (ps.map (fun q => q.1)).map (runningTotal durations) := by
      rw [List.map_map]
      exact List.map_congr_left hinv
    show (greedyAssign rest _).map (fun q => q.1) = greedySpec durations rest _
    have hstep : (modifyIdx ps (minIdx (ps.map (fun q => q.2)))
          (fun q => (q.1 ++ [p.1], q.2 + p.2))).map (fun q => q.1) =
        modifyIdx ((ps.map (fun q => q.1)))
          (minIdx (((ps.map (fun q => q.1))).map (runningTotal durations)))
          (fun part => part ++ [p.1]) := by
      rw [← hmins]
      exact modifyIdx_map ps _ _ _ _ (fun x => rfl)
    rw [ih _ (fun q hq => hdur q (List.mem_cons_of_mem _ hq)), hstep]
    intro q hq
    rcases mem_modifyIdx _ _ _ q hq with h2 | ⟨x, hx, rfl⟩
    · exact hinv q h2
    · simp only
      rw [runningTotal_append_one durations x.1 p.1 p.2 hdurp, hinv x hx]

theorem rr_fold_map (exs : List (Nat × String)) (k : Nat)
    (ps : List (List String × Nat)) :
    ((exs.foldl (fun ps p => modifyIdx ps (p.1 % k) (fun q => (q.1 ++ [p.2], q.2))) ps).map
        (fun q => q.1)) =
      exs.foldl (fun ps p => modifyIdx ps (p.1 % k) (fun part => part ++ [p.2]))
        (ps.map (fun q => q.1)) := by
  induction exs generalizing ps with
  | nil => rfl
  | cons p rest ih =>
    simp only [List.foldl_cons]
    rw [ih, modifyIdx_map ps (p.1 % k) (fun q => (q.1 ++ [p.2], q.2)) (fun q => q.1)
      (fun part => part ++ [p.2]) (fun x => rfl)]

/-- Claim C6: `partition_tests` computes exactly the declarative algorithm of
the specification — stable descending sort of the known-duration ids, greedy
assignment of each id to the partition whose (recomputed) running total is
currently smallest with ties to the first such partition, round-robin
distribution of the unknown-duration ids in input order, no partitions for
K=0 and the unchanged input for K=1. -/
theorem partition_algorithm_spec_eq (test_ids : List String)
    (durations : String → Option Nat) (concurrency : Nat) :
    partition_tests test_ids durations concurrency =
      partitionSpecDecl test_ids durations concurrency := by
  unfold partition_tests partitionSpecDecl
  by_cases h0 : concurrency = 0
  · simp [h0]
  · rw [if_neg h0, if_neg h0]
    by_cases h1 : concurrency = 1
    · simp [h1]
    · rw [if_neg h1, if_neg h1]
      simp only [roundRobinAssign, roundRobinSpec]
      rw [rr_fold_map]
      have hg : (greedyAssign
            (sortDesc (test_ids.filterMap (fun id => (durations id).map (fun d => (id, d)))))
            (List.replicate concurrency ([], 0))).map (fun q => q.1) =
          greedySpec durations
            (sortDesc (test_ids.filterMap (fun id => (durations id).map (fun d => (id, d)))))
            ((List.replicate concurrency (([] : List String), (0 : Nat))).map (fun q => q.1)) := by
        apply greedy_eq_spec
        · intro p hp
          exact mem_withD test_ids durations p
            (((sortDesc_perm _).mem_iff).mp hp)
        · intro q hq
          rw [List.mem_replicate] at hq
          rw [hq.2]
          rfl
      rw [hg, List.map_replicate]


theorem flatten_modifyIdx_append (ls : List (List String)) (i : Nat) (a : String)
    (h : i < ls.length) :
    (modifyIdx ls i (fun l => l ++ [a])).flatten.Perm (a :: ls.flatten) := by
  induction ls generalizing i with
  | nil => cases h
  | cons x xs ih =>
    cases i with
    | zero =>
      simp only [modifyIdx, List.flatten_cons]
      exact (List.perm_append_singleton a x).append_right _
    | succ j =>
      simp only [modifyIdx, List.flatten_cons]
      have hj : j < xs.length := by
        simpa using Nat.lt_of_succ_lt_succ h
      exact ((ih j hj).append_left x).trans List.perm_middle

theorem greedy_flatten_perm (sorted : List (String × Nat)) (ps : List (List String × Nat))
    (h : 0 < ps.length) :
    ((greedyAssign sorted ps).map (fun q => q.1)).flatten.Perm
      (sorted.map Prod.fst ++ (ps.map (fun q => q.1)).flatten) := by
  induction sorted generalizing ps with
  | nil => simp [greedyAssign]
  | cons p rest ih =>
    have hi : minIdx (ps.map (fun q => q.2)) < ps.length := by
      have hne : ps.map (fun q => q.2) ≠ [] := by
        intro hc
        rw [List.map_eq_nil_iff] at hc
        rw [hc] at h
        cases h
      have := minIdx_lt (ps.map (fun q => q.2)) hne
      simpa using this
    set ps2 := modifyIdx ps (minIdx (ps.map (fun q => q.2)))
      (fun q => (q.1 ++ [p.1], q.2 + p.2)) with hps2
    have hlen2 : 0 < ps2.length := by
      rw [hps2, modifyIdx_length]
      exact h
    have hstep : ps2.map (fun q => q.1) =
        modifyIdx (ps.map (fun q => q.1)) (minIdx (ps.map (fun q => q.2)))
          (fun part => part ++ [p.1]) :=
      modifyIdx_map ps _ _ _ _ (fun x => rfl)
    have hperm2 : (ps2.map (fun q => q.1)).flatten.Perm
        (p.1 :: (ps.map (fun q => q.1)).flatten) := by
      rw [hstep]
      exact flatten_modifyIdx_append _ _ _ (by simpa using hi)
    show ((greedyAssign rest ps2).map (fun q => q.1)).flatten.Perm _
    exact (ih ps2 hlen2).trans ((hperm2.append_left _).trans List.perm_middle)

theorem rr_flatten_perm (exs : List (Nat × String)) (k : Nat)
    (ps : List (List String × Nat)) (hk : 0 < k) (hlen : ps.length = k) :
    (((exs.foldl (fun ps p => modifyIdx ps (p.1 % k) (fun q => (q.1 ++ [p.2], q.2))) ps)).map
        (fun q => q.1)).flatten.Perm
      (exs.map Prod.snd ++ (ps.map (fun q => q.1)).flatten) := by
  induction exs generalizing ps with
  | nil => simp
  | cons p rest ih =>
    simp only [List.foldl_cons]
    set ps2 := modifyIdx ps (p.1 % k) (fun q => (q.1 ++ [p.2], q.2)) with hps2
    have hlen2 : ps2.length = k := by
      rw [hps2, modifyIdx_length]
      exact hlen
    have hstep : ps2.map (fun q => q.1) =
        modifyIdx (ps.map (fun q => q.1)) (p.1 % k) (fun part => part ++ [p.2]) :=
      modifyIdx_map ps _ _ _ _ (fun x => rfl)
    have hperm2 : (ps2.map (fun q => q.1)).flatten.Perm
        (p.2 :: (ps.map (fun q => q.1)).flatten) := by
      rw [hstep]
      apply flatten_modifyIdx_append
      rw [List.length_map, hlen]
      exact Nat.mod_lt _ hk
    exact (ih ps2 hlen2).trans ((hperm2.append_left _).trans List.perm_middle)

theorem filterMap_fst_eq_filter (test_ids : List String) (durations : String → Option Nat) :
    (test_ids.filterMap (fun id => (durations id).map (fun d => (id, d)))).map Prod.fst =
      test_ids.filter (fun id => (durations id).isSome) := by
  induction test_ids with
  | nil => rfl
  | cons a rest ih =>
    simp only [List.filterMap_cons, List.filter_cons]
    cases hd : durations a with
    | none => simpa [hd] using ih
    | some d => simpa [hd] using ih

theorem partition_flatten_perm (test_ids : List String) (durations : String → Option Nat)
    (concurrency : Nat) (hk : 1 ≤ concurrency) :
    (partition_tests test_ids durations concurrency).flatten.Perm test_ids := by
  unfold partition_tests
  have h0 : concurrency ≠ 0 := by omega
  rw [if_neg h0]
  by_cases h1 : concurrency = 1
  · simp [h1]
  · rw [if_neg h1]
    simp only [roundRobinAssign]
    have hk0 : 0 < concurrency := hk
    have hinit : ((List.replicate concurrency (([] : List String), (0 : Nat))).length) =
        concurrency := List.length_replicate _ _
    have hg := greedy_flatten_perm
      (sortDesc (test_ids.filterMap (fun id => (durations id).map (fun d => (id, d)))))
      (List.replicate concurrency ([], 0)) (by rw [hinit]; exact hk0)
    have hglen : (greedyAssign
        (sortDesc (test_ids.filterMap (fun id => (durations id).map (fun d => (id, d)))))
        (List.replicate concurrency ([], 0))).length = concurrency := by
      rw [greedyAssign_length, hinit]
    have hrr := rr_flatten_perm
      (test_ids.filter (fun id => (durations id).isNone)).enum concurrency
      (greedyAssign
        (sortDesc (test_ids.filterMap (fun id => (durations id).map (fun d => (id, d)))))
        (List.replicate concurrency ([], 0))) hk0 hglen
    refine hrr.trans ?_
    rw [List.enum_map_snd]
    have hgs : ((greedyAssign
        (sortDesc (test_ids.filterMap (fun id => (durations id).map (fun d => (id, d)))))
        (List.replicate concurrency ([], 0))).map (fun q => q.1)).flatten.Perm
        (test_ids.filter (fun id => (durations id).isSome)) := by
      have hflat : ((List.replicate concurrency (([] : List String), (0 : Nat))).map
          (fun q => q.1)).flatten = [] := by
        rw [List.map_replicate]
        simp [List.mem_replicate]
      refine hg.trans ?_
      rw [hflat, List.append_nil, ← filterMap_fst_eq_filter test_ids durations]
      exact (sortDesc_perm _).map _
    have hnone_eq : test_ids.filter (fun id => (durations id).isNone) =
        test_ids.filter (fun id => !(durations id).isSome) := by
      apply List.filter_congr
      intro a _
      cases durations a <;> rfl
    refine (List.Perm.append_left _ hgs).trans ?_
    rw [hnone_eq]
    exact List.perm_append_comm.trans (List.filter_append_perm _ test_ids)


theorem countP_contains_zero (ps : List (List String)) (id : String)
    (h : (ps.map (List.count id)).sum = 0) :
    ps.countP (fun p => decide (id ∈ p)) = 0 := by
  induction ps with
  | nil => rfl
  | cons p rest ih =>
    simp only [List.map_cons, List.sum_cons] at h
    have hc : List.count id p = 0 := by omega
    have hm : id ∉ p := List.count_eq_zero.mp hc
    rw [List.countP_cons]
    have hrest : (rest.map (List.count id)).sum = 0 := by omega
    rw [ih hrest]
    simp [hm]

theorem countP_contains_one (ps : List (List String)) (id : String)
    (h : (ps.map (List.count id)).sum = 1) :
    ps.countP (fun p => decide (id ∈ p)) = 1 := by
  induction ps with
  | nil => simp at h
  | cons p rest ih =>
    simp only [List.map_cons, List.sum_cons] at h
    rw [List.countP_cons]
    by_cases hm : id ∈ p
    · have hc : List.count id p ≠ 0 := by
        rw [ne_eq, List.count_eq_zero]
        exact fun hc => hc hm
      have hrest : (rest.map (List.count id)).sum = 0 := by omega
      rw [countP_contains_zero rest id hrest]
      simp [hm]
    · have hc : List.count id p = 0 := List.count_eq_zero.mpr hm
      have hrest : (rest.map (List.count id)).sum = 1 := by omega
      rw [ih hrest]
      simp [hm]

/-- Claim C5 (counterexample to the claim as stated): on an input list with a
duplicated id and two workers, the duplicate occurrences land in different
partitions, so the id occurs in two partitions rather than exactly one. -/
theorem partition_totality_counterexample :
    partition_tests ["t", "t"] (fun _ => none) 2 = [["t"], ["t"]] ∧
      (partition_tests ["t", "t"] (fun _ => none) 2).countP
        (fun p => decide ("t" ∈ p)) = 2 :=
  ⟨rfl, rfl⟩

/-- Claim C5 (amended): for every duplicate-free list of test ids, every
duration map and every K ≥ 1, `partition_tests` returns K lists whose
concatenation is a permutation of the input (so as a set it equals the input
set), and every input id occurs in exactly one partition. -/
theorem partition_totality_amended (test_ids : List String)
    (durations : String → Option Nat) (concurrency : Nat)
    (hk : 1 ≤ concurrency) (hnd : test_ids.Nodup) :
    (partition_tests test_ids durations concurrency).length = concurrency ∧
      (partition_tests test_ids durations concurrency).flatten.Perm test_ids ∧
      ∀ id ∈ test_ids,
        (partition_tests test_ids durations concurrency).countP
          (fun p => decide (id ∈ p)) = 1 := by
  refine ⟨partition_tests_length test_ids durations concurrency,
    partition_flatten_perm test_ids durations concurrency hk, ?_⟩
  intro id hid
  have hcount : List.count id (partition_tests test_ids durations concurrency).flatten = 1 := by
    rw [(partition_flatten_perm test_ids durations concurrency hk).count_eq]
    exact List.count_eq_one_of_mem hnd hid
  rw [List.count_flatten] at hcount
  exact countP_contains_one _ _ hcount

/-- Witness for C5: the amended theorem applied to three distinct ids, one
known duration and two workers; id `a` sits in exactly one partition. -/
theorem partition_totality_amended_witness :
    (partition_tests ["a", "b", "c"] (fun id => if id = "a" then some 5 else none) 2).countP
      (fun p => decide ("a" ∈ p)) = 1 :=
  (partition_totality_amended ["a", "b", "c"] (fun id => if id = "a" then some 5 else none) 2
    (by decide) (by decide)).2.2 "a" (by decide)


/-! ## Lemmas about grouping -/

theorem ains_keys_nodup {β : Type} (m : List (String × β)) (k : String) (v : β)
    (h : (m.map Prod.fst).Nodup) : ((ains m k v).map Prod.fst).Nodup := by
  rw [ains, List.map_append]
  have hsub : ((m.filter (fun p => p.1 ≠ k)).map Prod.fst).Nodup :=
    h.sublist ((List.filter_sublist m).map Prod.fst)
  rw [List.nodup_append]
  refine ⟨hsub, by simp, ?_⟩
  intro x hx
  simp only [List.mem_map] at hx
  obtain ⟨p, hp, rfl⟩ := hx
  rw [List.mem_filter] at hp
  simp only [List.map_cons, List.map_nil]
  intro hc
  rcases List.mem_cons.mp hc with h2 | h2
  · have hne : p.1 ≠ k := by simpa using hp.2
    exact hne h2
  · cases h2

theorem groupTests_keys_nodup (key : String → String) (tests : List String)
    (acc : List (String × List String)) (hacc : (acc.map Prod.fst).Nodup) :
    ((tests.foldl
        (fun groups t =>
          match alookup groups (key t) with
          | some members => ains groups (key t) (members ++ [t])
          | none => groups ++ [(key t, [t])])
        acc).map Prod.fst).Nodup := by
  induction tests generalizing acc with
  | nil => exact hacc
  | cons t rest ih =>
    simp only [List.foldl_cons]
    cases hl : alookup acc (key t) with
    | some members => exact ih _ (ains_keys_nodup acc (key t) _ hacc)
    | none =>
      apply ih
      rw [List.map_append]
      rw [List.nodup_append]
      refine ⟨hacc, by simp, ?_⟩
      intro x hx
      simp only [List.mem_map] at hx
      obtain ⟨p, hp, rfl⟩ := hx
      simp only [List.map_cons, List.map_nil]
      intro hc
      rcases List.mem_cons.mp hc with h2 | h2
      · exact forall_ne_of_alookup_eq_none acc (key t) hl p hp h2
      · cases h2

theorem groupTests_homogeneous (key : String → String) (tests : List String)
    (acc : List (String × List String))
    (hacc : ∀ g ∈ acc, ∀ x ∈ g.2, key x = g.1) :
    ∀ g ∈ tests.foldl
        (fun groups t =>
          match alookup groups (key t) with
          | some members => ains groups (key t) (members ++ [t])
          | none => groups ++ [(key t, [t])])
        acc, ∀ x ∈ g.2, key x = g.1 := by
  induction tests generalizing acc with
  | nil => exact hacc
  | cons t rest ih =>
    simp only [List.foldl_cons]
    cases hl : alookup acc (key t) with
    | some members =>
      apply ih
      intro g hg x hx
      simp only [ains] at hg
      rw [List.mem_append] at hg
      rcases hg with hg | hg
      · exact hacc g (List.mem_filter.mp hg).1 x hx
      · simp only [List.mem_cons, List.not_mem_nil, or_false] at hg
        subst hg
        simp only at hx ⊢
        rcases List.mem_append.mp hx with h2 | h2
        · exact hacc (key t, members) (mem_of_alookup_eq_some acc (key t) members hl) x h2
        · simp only [List.mem_cons, List.not_mem_nil, or_false] at h2
          rw [h2]
    | none =>
      apply ih
      intro g hg x hx
      rcases List.mem_append.mp hg with hg | hg
      · exact hacc g hg x hx
      · simp only [List.mem_cons, List.not_mem_nil, or_false] at hg
        subst hg
        simp only [List.mem_cons, List.not_mem_nil, or_false] at hx
        rw [hx]

theorem groupTests_mem_aux (key : String → String) (tests : List String)
    (acc : List (String × List String)) (t : String) (mem : List String)
    (hl : alookup acc (key t) = some mem) (hm : t ∈ mem) :
    ∃ mem2, alookup (tests.foldl
        (fun groups t =>
          match alookup groups (key t) with
          | some members => ains groups (key t) (members ++ [t])
          | none => groups ++ [(key t, [t])])
        acc) (key t) = some mem2 ∧ t ∈ mem2 := by
  induction tests generalizing acc mem with
  | nil => exact ⟨mem, hl, hm⟩
  | cons t0 rest ih =>
    simp only [List.foldl_cons]
    cases hl0 : alookup acc (key t0) with
    | some members =>
      by_cases he : key t = key t0
      · have hmm : mem = members := by
          rw [he] at hl
          rw [hl] at hl0
          injection hl0
        refine ih _ (members ++ [t0]) ?_ ?_
        · rw [he, alookup_ains_self]
        · exact List.mem_append.mpr (Or.inl (hmm ▸ hm))
      · refine ih _ mem ?_ hm
        rw [alookup_ains_ne _ _ _ _ he]
        exact hl
    | none =>
      refine ih _ mem ?_ hm
      rw [alookup_append, hl]
      rfl

theorem groupTests_mem (key : String → String) (tests : List String)
    (acc : List (String × List String)) (t : String) (ht : t ∈ tests) :
    ∃ mem, alookup (tests.foldl
        (fun groups t =>
          match alookup groups (key t) with
          | some members => ains groups (key t) (members ++ [t])
          | none => groups ++ [(key t, [t])])
        acc) (key t) = some mem ∧ t ∈ mem := by
  induction tests generalizing acc with
  | nil => cases ht
  | cons t0 rest ih =>
    simp only [List.foldl_cons]
    rcases List.mem_cons.mp ht with rfl | ht2
    · cases hl0 : alookup acc (key t) with
      | some members =>
        refine groupTests_mem_aux key rest _ t (members ++ [t]) ?_ ?_
        · rw [alookup_ains_self]
        · exact List.mem_append.mpr (Or.inr (List.mem_cons_self _ _))
      | none =>
        refine groupTests_mem_aux key rest _ t [t] ?_ (List.mem_cons_self _ _)
        rw [alookup_append, hl0]
        simp [alookup]
    · cases hl0 : alookup acc (key t0) with
      | some members => exact ih _ ht2
      | none => exact ih _ ht2

theorem alookup_of_mem_nodup {β : Type} (m : List (String × β)) (k : String) (v : β)
    (hmem : (k, v) ∈ m) (hnd : (m.map Prod.fst).Nodup) : alookup m k = some v := by
  induction m with
  | nil => cases hmem
  | cons p rest ih =>
    simp only [List.map_cons, List.nodup_cons] at hnd
    rcases List.mem_cons.mp hmem with h2 | h2
    · rw [← h2]
      simp [alookup]
    · have hne : p.1 ≠ k := by
        intro hc
        exact hnd.1 (hc ▸ List.mem_map_of_mem Prod.fst h2)
      simp only [alookup, if_neg hne]
      exact ih h2 hnd.2

theorem insertDescG_perm (x : String × List String × Nat)
    (l : List (String × List String × Nat)) : (insertDescG x l).Perm (x :: l) := by
  induction l with
  | nil => exact List.Perm.refl _
  | cons y ys ih =>
    simp only [insertDescG]
    by_cases hc : x.2.2 ≥ y.2.2
    · rw [if_pos hc]
    · rw [if_neg hc]
      exact (List.Perm.cons y ih).trans (List.Perm.swap x y ys)

theorem sortDescG_perm (l : List (String × List String × Nat)) : (sortDescG l).Perm l := by
  induction l with
  | nil => exact List.Perm.refl _
  | cons x xs ih =>
    have : sortDescG (x :: xs) = insertDescG x (sortDescG xs) := rfl
    rw [this]
    exact (insertDescG_perm x (sortDescG xs)).trans (List.Perm.cons x ih)


theorem grouping_fold_invariant (G : List (String × List String)) (key : String → String)
    (hG1 : ∀ g ∈ G, ∀ x ∈ g.2, key x = g.1)
    (hGnd : (G.map Prod.fst).Nodup)
    (sorted : List (String × List String × Nat))
    (hs : ∀ g ∈ sorted, (g.1, g.2.1) ∈ G)
    (ps : List (List String × Nat))
    (hinv : ∀ q ∈ ps, ∀ x ∈ q.1,
      ∃ mem, alookup G (key x) = some mem ∧ ∀ y ∈ mem, y ∈ q.1) :
    ∀ q ∈ sorted.foldl
        (fun ps g =>
          modifyIdx ps (minIdx (ps.map (fun q => q.2)))
            (fun q => (q.1 ++ g.2.1, q.2 + g.2.2)))
        ps,
      ∀ x ∈ q.1, ∃ mem, alookup G (key x) = some mem ∧ ∀ y ∈ mem, y ∈ q.1 := by
  induction sorted generalizing ps with
  | nil => exact hinv
  | cons g rest ih =>
    simp only [List.foldl_cons]
    have hgG : (g.1, g.2.1) ∈ G := hs g (List.mem_cons_self _ _)
    apply ih (fun g2 hg2 => hs g2 (List.mem_cons_of_mem _ hg2))
    intro q hq x hx
    rcases mem_modifyIdx _ _ _ q hq with h2 | ⟨x0, hx0, rfl⟩
    · exact hinv q h2 x hx
    · simp only at hx ⊢
      rcases List.mem_append.mp hx with h3 | h3
      · obtain ⟨mem, hl, hsub⟩ := hinv x0 hx0 x h3
        exact ⟨mem, hl, fun y hy => List.mem_append.mpr (Or.inl (hsub y hy))⟩
      · have hkx : key x = g.1 := hG1 (g.1, g.2.1) hgG x h3
        refine ⟨g.2.1, ?_, fun y hy => List.mem_append.mpr (Or.inr hy)⟩
        rw [hkx]
        exact alookup_of_mem_nodup G g.1 g.2.1 hgG hGnd

/-- Claim C7: with any grouping key function (abstracting the compiled
grouping regex), `partition_tests_with_grouping` never splits a group: two
test ids with the same group key are always placed in the same
partition. -/
theorem grouping_atomicity (test_ids : List String) (durations : String → Option Nat)
    (concurrency : Nat) (key : String → String) (a b : String)
    (hk : 1 ≤ concurrency) (ha : a ∈ test_ids) (hb : b ∈ test_ids)
    (hkey : key a = key b) :
    ∀ p ∈ partition_tests_with_grouping test_ids durations concurrency key,
      (a ∈ p ↔ b ∈ p) := by
  have hmain : ∀ a2 b2, a2 ∈ test_ids → b2 ∈ test_ids → key a2 = key b2 →
      ∀ p ∈ partition_tests_with_grouping test_ids durations concurrency key,
        a2 ∈ p → b2 ∈ p := by
    intro a2 b2 ha2 hb2 hkey2 p hp hap
    unfold partition_tests_with_grouping at hp
    by_cases h0 : concurrency = 0
    · rw [if_pos h0] at hp
      cases hp
    · rw [if_neg h0] at hp
      by_cases h1 : concurrency = 1
      · rw [if_pos h1] at hp
        simp only [List.mem_cons, List.not_mem_nil, or_false] at hp
        rw [hp]
        exact hb2
      · rw [if_neg h1] at hp
        simp only [List.mem_map] at hp
        obtain ⟨q, hq, rfl⟩ := hp
        have hG1 : ∀ g ∈ group_tests test_ids key, ∀ x ∈ g.2, key x = g.1 :=
          groupTests_homogeneous key test_ids [] (by intro g hg; cases hg)
        have hGnd : ((group_tests test_ids key).map Prod.fst).Nodup :=
          groupTests_keys_nodup key test_ids [] (by simp)
        have hfinal := grouping_fold_invariant (group_tests test_ids key) key hG1 hGnd
          (sortDescG ((group_tests test_ids key).map
            (fun g => (g.1, g.2, groupDuration durations g.2))))
          (by
            intro g hg
            have hg2 := (sortDescG_perm _).mem_iff.mp hg
            simp only [List.mem_map] at hg2
            obtain ⟨g0, hg0, rfl⟩ := hg2
            simpa using hg0)
          (List.replicate concurrency ([], 0))
          (by
            intro q hq x hx
            rw [List.mem_replicate] at hq
            rw [hq.2] at hx
            cases hx)
        obtain ⟨mem, hl, hsub⟩ := hfinal q hq a2 hap
        obtain ⟨mem2, hl2, hbm⟩ := groupTests_mem key test_ids [] b2 hb2
        have hmm : mem = mem2 := by
          rw [hkey2] at hl
          have hl2b : alookup (group_tests test_ids key) (key b2) = some mem2 := hl2
          rw [hl] at hl2b
          exact Option.some.inj hl2b
        exact hsub b2 (hmm ▸ hbm)
  intro p hp
  exact ⟨hmain a b ha hb hkey p hp, hmain b a hb ha hkey.symm p hp⟩

/-- Witness for C7: with ids grouped so that `a.x1` and `a.x2` share group
`a`, both land in the same partition of the computed result. -/
theorem grouping_atomicity_witness :
    "a.x1" ∈ (["a.x1", "a.x2", "b.y1"] : List String) ↔
      "a.x2" ∈ (["a.x1", "a.x2", "b.y1"] : List String) :=
  grouping_atomicity ["a.x1", "a.x2", "b.y1"] (fun _ => none) 2
    (fun s => if s = "a.x1" ∨ s = "a.x2" then "a" else s) "a.x1" "a.x2"
    (by decide) (by decide) (by decide) (by decide)
    ["a.x1", "a.x2", "b.y1"] (by decide)


/-! ## Lemmas about `filter_failing_tests` -/

theorem terminal_of_failure (s : SubunitStatus) (h : subunitIsFailure s = true) :
    (convert_subunit_status s).isSome = true := by
  cases s <;> simp_all [subunitIsFailure, convert_subunit_status]

theorem mem_collectFailingIds_aux (items : List StreamItem) (acc : List String)
    (tid : String) :
    tid ∈ items.foldl
        (fun acc it =>
          match it with
          | StreamItem.eventItem e =>
            match e.test_id with
            | some tid2 => if subunitIsFailure e.status then tid2 :: acc else acc
            | none => acc
          | _ => acc)
        acc ↔
      tid ∈ acc ∨ ∃ e, StreamItem.eventItem e ∈ items ∧ e.test_id = some tid ∧
        subunitIsFailure e.status = true := by
  induction items generalizing acc with
  | nil => simp
  | cons it rest ih =>
    simp only [List.foldl_cons]
    cases it with
    | errItem =>
      rw [ih]
      simp only [List.mem_cons]
      constructor
      · rintro (h | ⟨e, he, h2, h3⟩)
        · exact Or.inl h
        · exact Or.inr ⟨e, Or.inr he, h2, h3⟩
      · rintro (h | ⟨e, (he | he), h2, h3⟩)
        · exact Or.inl h
        · cases he
        · exact Or.inr ⟨e, he, h2, h3⟩
    | unknownItem =>
      rw [ih]
      simp only [List.mem_cons]
      constructor
      · rintro (h | ⟨e, he, h2, h3⟩)
        · exact Or.inl h
        · exact Or.inr ⟨e, Or.inr he, h2, h3⟩
      · rintro (h | ⟨e, (he | he), h2, h3⟩)
        · exact Or.inl h
        · cases he
        · exact Or.inr ⟨e, he, h2, h3⟩
    | bytesItem =>
      rw [ih]
      simp only [List.mem_cons]
      constructor
      · rintro (h | ⟨e, he, h2, h3⟩)
        · exact Or.inl h
        · exact Or.inr ⟨e, Or.inr he, h2, h3⟩
      · rintro (h | ⟨e, (he | he), h2, h3⟩)
        · exact Or.inl h
        · cases he
        · exact Or.inr ⟨e, he, h2, h3⟩
    | eventItem e0 =>
      rw [ih]
      constructor
      · rintro (h | ⟨e, he, h2, h3⟩)
        · cases hid : e0.test_id with
          | none =>
            simp only [hid] at h
            exact Or.inl h
          | some tid2 =>
            simp only [hid] at h
            by_cases hf : subunitIsFailure e0.status = true
            · rw [if_pos hf] at h
              rcases List.mem_cons.mp h with rfl | h4
              · exact Or.inr ⟨e0, List.mem_cons_self _ _, hid, hf⟩
              · exact Or.inl h4
            · rw [if_neg hf] at h
              exact Or.inl h
        · exact Or.inr ⟨e, List.mem_cons_of_mem _ he, h2, h3⟩
      · rintro (h | ⟨e, he, h2, h3⟩)
        · left
          cases hid : e0.test_id with
          | none =>
            simp only [hid]
            exact h
          | some tid2 =>
            simp only [hid]
            by_cases hf : subunitIsFailure e0.status = true
            · rw [if_pos hf]
              exact List.mem_cons_of_mem _ h
            · rw [if_neg hf]
              exact h
        · rcases List.mem_cons.mp he with heq | he2
          · have he0 : e = e0 := by injection heq
            subst he0
            left
            simp only [h2, if_pos h3]
            exact List.mem_cons_self _ _
          · exact Or.inr ⟨e, he2, h2, h3⟩

theorem mem_collectFailingIds (items : List StreamItem) (tid : String) :
    tid ∈ collectFailingIds items ↔
      ∃ e, StreamItem.eventItem e ∈ items ∧ e.test_id = some tid ∧
        subunitIsFailure e.status = true := by
  unfold collectFailingIds
  rw [mem_collectFailingIds_aux]
  simp

theorem hasFailingEvent_iff (items : List StreamItem) (tid : String) :
    hasFailingEvent items tid = true ↔
      ∃ e, StreamItem.eventItem e ∈ items ∧ e.test_id = some tid ∧
        subunitIsFailure e.status = true := by
  unfold hasFailingEvent
  rw [List.any_eq_true]
  constructor
  · rintro ⟨it, hit, h2⟩
    cases it with
    | eventItem e =>
      simp only [Bool.and_eq_true, beq_iff_eq] at h2
      exact ⟨e, hit, h2.1, h2.2⟩
    | errItem => cases h2
    | unknownItem => cases h2
    | bytesItem => cases h2
  · rintro ⟨e, he, h2, h3⟩
    refine ⟨StreamItem.eventItem e, he, ?_⟩
    simp [h2, h3]

theorem mem_filter_failing (items : List StreamItem) (e : SubEvent) :
    e ∈ filter_failing_tests items ↔
      StreamItem.eventItem e ∈ items ∧
        ∃ tid, e.test_id = some tid ∧ tid ∈ collectFailingIds items := by
  unfold filter_failing_tests
  rw [List.mem_filterMap]
  constructor
  · rintro ⟨it, hit, h2⟩
    cases it with
    | eventItem e0 =>
      cases hid : e0.test_id with
      | none =>
        simp only [hid] at h2
        cases h2
      | some tid =>
        simp only [hid] at h2
        by_cases hf : tid ∈ collectFailingIds items
        · rw [if_pos hf] at h2
          have he0 : e0 = e := by injection h2
          subst he0
          exact ⟨hit, tid, hid, hf⟩
        · rw [if_neg hf] at h2
          cases h2
    | errItem => cases h2
    | unknownItem => cases h2
    | bytesItem => cases h2
  · rintro ⟨hmem, tid, hid, hf⟩
    refine ⟨StreamItem.eventItem e, hmem, ?_⟩
    simp only [hid]
    rw [if_pos hf]

/-- Claim C9: `filter_failing_tests` classifies a test id as failing when any
event for it anywhere in the stream has status `Failed` or
`UnexpectedSuccess`, and then copies exactly the events carrying such ids;
consequently the failing artifact can contain a test whose final parsed
status is a success (`c9items` ends with a `Success` event for `t`, yet `t`
and both of its events are kept and parse back with status `Success`). -/
theorem filter_failing_any_event :
    (∀ items e, e ∈ filter_failing_tests items →
      StreamItem.eventItem e ∈ items ∧
        ∃ tid, e.test_id = some tid ∧ hasFailingEvent items tid = true) ∧
    (∀ items e tid, StreamItem.eventItem e ∈ items → e.test_id = some tid →
      hasFailingEvent items tid = true → e ∈ filter_failing_tests items) ∧
    (filter_failing_tests c9items = [bareEvent "t" .failed, bareEvent "t" .success] ∧
      parseEvents ((filter_failing_tests c9items).map StreamItem.eventItem) =
        .ok [("t", ⟨"t", TestStatus.success, none, none, none, []⟩)] ∧
      TestStatus.is_success TestStatus.success = true) := by
  refine ⟨?_, ?_, rfl, rfl, rfl⟩
  · intro items e he
    obtain ⟨hmem, tid, hid, hf⟩ := (mem_filter_failing items e).mp he
    exact ⟨hmem, tid, hid,
      (hasFailingEvent_iff items tid).mpr ((mem_collectFailingIds items tid).mp hf)⟩
  · intro items e tid hmem hid hf
    exact (mem_filter_failing items e).mpr ⟨hmem, tid, hid,
      (mem_collectFailingIds items tid).mpr ((hasFailingEvent_iff items tid).mp hf)⟩

/-- Witness for C9: the forward-copy direction applied to a concrete stream
with one `UnexpectedSuccess` event. -/
theorem filter_failing_any_event_witness :
    bareEvent "v" SubunitStatus.uxsuccess ∈ filter_failing_tests c9witems :=
  filter_failing_any_event.2.1 c9witems (bareEvent "v" SubunitStatus.uxsuccess) "v"
    (by decide) rfl (by decide)


/-! ## Lemmas about the failing artifact -/

theorem tsValid_mem (items : List StreamItem) (e : SubEvent)
    (hts : tsValid items = true) (hmem : StreamItem.eventItem e ∈ items) :
    e.timestamp ≠ some SubTimestamp.invalid := by
  unfold tsValid at hts
  rw [List.all_eq_true] at hts
  have := hts (StreamItem.eventItem e) hmem
  simpa [itemTsOk] using this

theorem eventItem_mem_map (evs : List SubEvent) (e : SubEvent) :
    StreamItem.eventItem e ∈ evs.map StreamItem.eventItem ↔ e ∈ evs := by
  rw [List.mem_map]
  constructor
  · rintro ⟨x, hx, hx2⟩
    have : x = e := by injection hx2
    exact this ▸ hx
  · intro h
    exact ⟨e, h, rfl⟩

theorem tsValid_filter (raw : List StreamItem) (hts : tsValid raw = true) :
    tsValid ((filter_failing_tests raw).map StreamItem.eventItem) = true := by
  unfold tsValid
  rw [List.all_eq_true]
  intro it hit
  rw [List.mem_map] at hit
  obtain ⟨e, he, rfl⟩ := hit
  have hraw : StreamItem.eventItem e ∈ raw := ((mem_filter_failing raw e).mp he).1
  simpa [itemTsOk] using tsValid_mem raw e hts hraw

/-- Claim C2 (counterexample to the claim as stated): in the raw stream
`c2raw` test `t` first fails and then finally succeeds, so its result in the
stored run has the succeeding status `Success`; yet the rebuilt failing
artifact still contains `t`. -/
theorem replace_failing_counterexample :
    parseEvents c2raw = .ok [("t", ⟨"t", TestStatus.success, none, none, none, []⟩)] ∧
      TestStatus.is_failure TestStatus.success = false ∧
      (alookup (parseResultsD ((write_failing_run_from_raw c2raw).map StreamItem.eventItem))
        "t").isSome = true :=
  ⟨rfl, rfl, rfl⟩

/-- Claim C2 (amended): after the replace transition the failing set
contains exactly the test ids having at least one `Failed` or
`UnexpectedSuccess` event anywhere in the raw stream — which coincides with
"the result is failing" only when no test reports a failing event followed
by a succeeding terminal event; prior membership is irrelevant because the
artifact is rebuilt from the raw stream alone. -/
theorem replace_failing_amended (raw : List StreamItem) (hts : tsValid raw = true) :
    (parseEvents ((write_failing_run_from_raw raw).map StreamItem.eventItem)).isOk = true ∧
      ∀ tid,
        (alookup (parseResultsD ((write_failing_run_from_raw raw).map StreamItem.eventItem))
          tid).isSome = true ↔ hasFailingEvent raw tid = true := by
  obtain ⟨st2, hok⟩ := parseGo_ok_of_tsValid ((filter_failing_tests raw).map StreamItem.eventItem)
    ⟨[], [], 0⟩ (tsValid_filter raw hts)
  have hpe : parseEvents ((filter_failing_tests raw).map StreamItem.eventItem) =
      .ok st2.results := by
    unfold parseEvents
    rw [hok]
    rfl
  have hprd : parseResultsD ((filter_failing_tests raw).map StreamItem.eventItem) =
      st2.results := by
    unfold parseResultsD
    rw [hpe]
  constructor
  · show (parseEvents ((filter_failing_tests raw).map StreamItem.eventItem)).isOk = true
    rw [hpe]
    rfl
  · intro tid
    show (alookup (parseResultsD ((filter_failing_tests raw).map StreamItem.eventItem))
        tid).isSome = true ↔ _
    rw [hprd]
    constructor
    · intro hsome
      rcases parseGo_results_sound _ _ _ hok tid hsome with h2 | ⟨e, he, hid, hterm⟩
      · cases h2
      · rw [eventItem_mem_map] at he
        obtain ⟨hraw, tid2, hid2, hcoll⟩ := (mem_filter_failing raw e).mp he
        have heq : tid2 = tid := by
          rw [hid] at hid2
          injection hid2 with h
          exact h.symm
        rw [heq] at hcoll
        exact (hasFailingEvent_iff raw tid).mpr ((mem_collectFailingIds raw tid).mp hcoll)
    · intro hf
      obtain ⟨e, he, hid, hfail⟩ := (hasFailingEvent_iff raw tid).mp hf
      have hmemf : e ∈ filter_failing_tests raw :=
        (mem_filter_failing raw e).mpr
          ⟨he, tid, hid, (mem_collectFailingIds raw tid).mpr ⟨e, he, hid, hfail⟩⟩
      exact parseGo_results_complete _ _ _ hok (noBreakGo_eventItems _ 0) e tid
        ((eventItem_mem_map _ e).mpr hmemf) hid (terminal_of_failure _ hfail)

/-- Witness for C2: the amended theorem applied to `c2wraw`; the failing test
`f` is in the rebuilt failing set. -/
theorem replace_failing_amended_witness :
    (alookup (parseResultsD ((write_failing_run_from_raw c2wraw).map StreamItem.eventItem))
      "f").isSome = true :=
  ((replace_failing_amended c2wraw rfl).2 "f").mpr rfl


/-- Claim C8 (counterexample to the claim as stated): `c8cex` opens with a
well-formed `Success` event for `u` carrying an unconvertible timestamp,
then 100 consecutive iteration errors, then a fully-formed terminal event
for `t`.  The parse returns `Ok` (no error despite the unconvertible
timestamp, because no start time was recorded for `u`) and the run does not
contain `t` (the consecutive-error cap stopped the scan early). -/
theorem parse_tolerance_counterexample :
    parseEvents c8cex = .ok [("u", ⟨"u", TestStatus.success, none, none, none, []⟩)] ∧
      StreamItem.eventItem ⟨some "t", .success, some (.valid 0), none, none⟩ ∈ c8cex ∧
      (convert_subunit_status SubunitStatus.success).isSome = true ∧
      (alookup (parseResultsD c8cex) "t").isSome = false ∧
      StreamItem.eventItem ⟨some "u", .success, some .invalid, none, none⟩ ∈ c8cex :=
  ⟨rfl, by decide, rfl, rfl, by decide⟩

/-- Claim C8 (amended): for every input whose event timestamps are all
convertible, `parse_stream` returns `Ok` — truncation garbage, unknown
chunks and interleaved bytes never raise an error; every collected result
comes from a well-formed terminal event, and when the scan never breaks
early (which requires 100 consecutive iteration errors) every fully-formed
terminal event contributes its result.  An error can arise only from
converting an unconvertible timestamp, namely on an in-progress event with a
test id or on a terminal event whose test id has a recorded start time. -/
theorem parse_tolerance_amended (items : List StreamItem) (hts : tsValid items = true) :
    (parseEvents items).isOk = true ∧
      (∀ tid, (alookup (parseResultsD items) tid).isSome = true →
        ∃ e, StreamItem.eventItem e ∈ items ∧ e.test_id = some tid ∧
          (convert_subunit_status e.status).isSome = true) ∧
      (noBreak items = true →
        ∀ e tid, StreamItem.eventItem e ∈ items → e.test_id = some tid →
          (convert_subunit_status e.status).isSome = true →
          (alookup (parseResultsD items) tid).isSome = true) := by
  obtain ⟨st2, hok⟩ := parseGo_ok_of_tsValid items ⟨[], [], 0⟩ hts
  have hpe : parseEvents items = .ok st2.results := by
    unfold parseEvents
    rw [hok]
    rfl
  have hprd : parseResultsD items = st2.results := by
    unfold parseResultsD
    rw [hpe]
  refine ⟨?_, ?_, ?_⟩
  · rw [hpe]
    rfl
  · intro tid hsome
    rw [hprd] at hsome
    rcases parseGo_results_sound _ _ _ hok tid hsome with h | h
    · cases h
    · exact h
  · intro hnb e tid hmem hid hterm
    rw [hprd]
    exact parseGo_results_complete _ _ _ hok hnb e tid hmem hid hterm

/-- Witness for C8: the amended theorem applied to a stream with an unknown
chunk, interleaved bytes, an iteration error and one terminal event. -/
theorem parse_tolerance_amended_witness :
    (alookup (parseResultsD c8witems) "p").isSome = true :=
  (parse_tolerance_amended c8witems rfl).2.2 rfl
    ⟨some "p", .success, some (.valid 5), none, none⟩ "p" (by decide) rfl rfl


theorem alookup_isSome_of_mem {β : Type} (m : List (String × β)) (p : String × β)
    (h : p ∈ m) : (alookup m p.1).isSome = true := by
  induction m with
  | nil => cases h
  | cons q rest ih =>
    by_cases hq : q.1 = p.1
    · simp [alookup, hq]
    · rcases List.mem_cons.mp h with rfl | h2
      · exact absurd rfl hq
      · simp only [alookup, if_neg hq]
        exact ih h2

theorem mem_of_mem_ains {β : Type} (m : List (String × β)) (k : String) (v : β)
    (q : String × β) (h : q ∈ ains m k v) : q ∈ m ∨ q = (k, v) := by
  unfold ains at h
  rcases List.mem_append.mp h with h2 | h2
  · exact Or.inl (List.mem_filter.mp h2).1
  · simp only [List.mem_cons, List.not_mem_nil, or_false] at h2
    exact Or.inr h2

theorem processEvent_wellKeyed (st : ParseState) (e : SubEvent) (st2 : ParseState)
    (h : processEvent st e = .ok st2)
    (hwk : ∀ p ∈ st.results, p.1 = p.2.test_id) :
    ∀ p ∈ st2.results, p.1 = p.2.test_id := by
  have hs := processEvent_results_spec st e st2 h
  cases hid : e.test_id with
  | none =>
    rw [hid] at hs
    simp only at hs
    rw [hs]
    exact hwk
  | some tid =>
    rw [hid] at hs
    cases hcv : convert_subunit_status e.status with
    | none =>
      rw [hcv] at hs
      simp only at hs
      rw [hs]
      exact hwk
    | some s =>
      rw [hcv] at hs
      obtain ⟨r, hr1, hr2⟩ := hs
      rw [hr2]
      intro p hp
      rcases mem_of_mem_ains _ _ _ _ hp with h2 | rfl
      · exact hwk p h2
      · simp [hr1]

theorem parseGo_wellKeyed (items : List StreamItem) (st st2 : ParseState)
    (h : parseGo items st = .ok st2)
    (hwk : ∀ p ∈ st.results, p.1 = p.2.test_id) :
    ∀ p ∈ st2.results, p.1 = p.2.test_id := by
  induction items generalizing st with
  | nil =>
    injection h with h
    rw [← h]
    exact hwk
  | cons it rest ih =>
    cases it with
    | errItem =>
      simp only [parseGo] at h
      by_cases hc : st.consecutiveErrors + 1 ≥ maxConsecutiveErrors
      · rw [if_pos hc] at h
        injection h with h
        rw [← h]
        exact hwk
      · rw [if_neg hc] at h
        exact ih _ h hwk
    | unknownItem =>
      simp only [parseGo] at h
      by_cases hc : 0 + 1 ≥ maxConsecutiveErrors
      · rw [if_pos hc] at h
        injection h with h
        rw [← h]
        exact hwk
      · rw [if_neg hc] at h
        exact ih _ h hwk
    | bytesItem =>
      simp only [parseGo] at h
      exact ih _ h hwk
    | eventItem e =>
      simp only [parseGo] at h
      cases hpe : processEvent st e with
      | ok st1 =>
        rw [hpe] at h
        simp only at h
        exact ih _ h (processEvent_wellKeyed st e st1 hpe hwk)
      | error m =>
        rw [hpe] at h
        simp only at h
        cases h

theorem parseEvents_wellKeyed (items : List StreamItem)
    (rs : List (TestId × TestResult)) (h : parseEvents items = .ok rs) :
    ∀ p ∈ rs, p.1 = p.2.test_id := by
  unfold parseEvents at h
  cases hok : parseGo items ⟨[], [], 0⟩ with
  | ok st2 =>
    rw [hok] at h
    simp only [Except.map] at h
    injection h with h
    rw [← h]
    exact parseGo_wellKeyed items _ st2 hok (by intro p hp; cases hp)
  | error m =>
    rw [hok] at h
    simp only [Except.map] at h
    cases h

theorem updatedMap_untouched (entries : List (TestId × TestResult))
    (m : List (TestId × TestResult)) (tid : String)
    (h : ∀ p ∈ entries, p.2.test_id ≠ tid) :
    alookup (entries.foldl
        (fun m p =>
          if p.2.status.is_failure then ains m p.2.test_id p.2
          else if p.2.status.is_success then aremove m p.2.test_id
          else m)
        m) tid = alookup m tid := by
  induction entries generalizing m with
  | nil => rfl
  | cons p rest ih =>
    simp only [List.foldl_cons]
    have hne : tid ≠ p.2.test_id := Ne.symm (h p (List.mem_cons_self _ _))
    have hrest := fun q hq => h q (List.mem_cons_of_mem _ hq)
    by_cases hf : p.2.status.is_failure = true
    · rw [if_pos hf, ih _ hrest, alookup_ains_ne _ _ _ _ hne]
    · rw [if_neg hf]
      by_cases hsc : p.2.status.is_success = true
      · rw [if_pos hsc, ih _ hrest, alookup_aremove_ne _ _ _ hne]
      · rw [if_neg hsc, ih _ hrest]

theorem updatedFailingMap_untouched (old : Option (List StreamItem))
    (nr : List (TestId × TestResult)) (tid : String)
    (hwk : ∀ p ∈ nr, p.1 = p.2.test_id)
    (hnone : (alookup nr tid).isNone = true) :
    alookup (updatedFailingMap old nr) tid =
      alookup (readFailingRunOrDefault old) tid := by
  unfold updatedFailingMap
  apply updatedMap_untouched
  intro p hp
  rw [← hwk p hp]
  intro hc
  have := alookup_isSome_of_mem nr p hp
  rw [hc] at this
  rw [Option.isNone_iff_eq_none] at hnone
  rw [hnone] at this
  cases this

theorem mem_keptOldEvents (old : Option (List StreamItem))
    (updated newResults : List (TestId × TestResult)) (e : SubEvent) :
    e ∈ keptOldEvents old updated newResults ↔
      ∃ items, old = some items ∧ StreamItem.eventItem e ∈ items ∧
        ∃ tid, e.test_id = some tid ∧ (alookup updated tid).isSome = true ∧
          (alookup newResults tid).isNone = true := by
  cases old with
  | none =>
    simp only [keptOldEvents]
    constructor
    · intro h
      cases h
    · rintro ⟨items, h, _⟩
      cases h
  | some items =>
    simp only [keptOldEvents]
    rw [List.mem_filterMap]
    constructor
    · rintro ⟨it, hit, h2⟩
      cases it with
      | eventItem e0 =>
        cases hid : e0.test_id with
        | none =>
          simp only [hid] at h2
          cases h2
        | some tid =>
          simp only [hid] at h2
          by_cases hc : (alookup updated tid).isSome = true ∧
              (alookup newResults tid).isNone = true
          · rw [if_pos hc] at h2
            have he0 : e0 = e := by injection h2
            subst he0
            exact ⟨items, rfl, hit, tid, hid, hc.1, hc.2⟩
          · rw [if_neg hc] at h2
            cases h2
      | errItem => cases h2
      | unknownItem => cases h2
      | bytesItem => cases h2
    · rintro ⟨items2, hi, hmem, tid, hid, h1, h2⟩
      have heq : items2 = items := by
        injection hi with h
        exact h.symm
      subst heq
      refine ⟨StreamItem.eventItem e, hmem, ?_⟩
      simp only [hid]
      rw [if_pos ⟨h1, h2⟩]

theorem readFailingRun_isSome (old : Option (List StreamItem)) (tid : String)
    (h : (alookup (readFailingRunOrDefault old) tid).isSome = true) :
    ∃ items rs0, old = some items ∧ parseEvents items = .ok rs0 ∧
      (alookup rs0 tid).isSome = true := by
  cases old with
  | none =>
    simp [readFailingRunOrDefault, alookup] at h
  | some items =>
    simp only [readFailingRunOrDefault] at h
    cases hp : parseEvents items with
    | ok rs0 =>
      rw [hp] at h
      exact ⟨items, rs0, rfl, hp, h⟩
    | error m =>
      rw [hp] at h
      simp [alookup] at h


/-- Claim C3 (counterexample to the claim as stated): in the raw stream
`c3raw` test `t` fails and then finally succeeds (its result in the run is
the succeeding status), while `u` fails; after the merge the failing
artifact still contains `t`. -/
theorem merge_failing_counterexample :
    parseEvents c3raw = .ok
        [("t", ⟨"t", TestStatus.success, none, none, none, []⟩),
         ("u", ⟨"u", TestStatus.failure, none, none, none, []⟩)] ∧
      TestStatus.is_success TestStatus.success = true ∧
      mergedMemB none c3raw "t" = true :=
  ⟨rfl, rfl, rfl⟩

/-- Claim C3 (amended): after the merge transition, when the updated failing
map is empty the failing file is removed and the set is empty; otherwise a
test id is in the failing set exactly when it has a `Failed` or
`UnexpectedSuccess` event somewhere in the new raw stream (even if its final
result in the run succeeds), or it was in the prior failing set and is not
mentioned in the new run's results.  In particular every id with a failing
result is present and every unmentioned id keeps its prior membership, but
an id whose final result succeeds after an earlier failing event remains
present. -/
theorem merge_failing_amended (old : Option (List StreamItem)) (raw : List StreamItem)
    (hold : optTsValid old = true) (hraw : tsValid raw = true) :
    (update_failing_run_from_raw old raw).isOk = true ∧
      (updatedFailingMap old (parseResultsD raw) = [] →
        update_failing_run_from_raw old raw = .ok none) ∧
      (updatedFailingMap old (parseResultsD raw) ≠ [] →
        ∀ tid, mergedMemB old raw tid = true ↔
          (hasFailingEvent raw tid = true ∨
            ((alookup (readFailingRunOrDefault old) tid).isSome = true ∧
              (alookup (parseResultsD raw) tid).isNone = true))) := by
  obtain ⟨str, hokr⟩ := parseGo_ok_of_tsValid raw ⟨[], [], 0⟩ hraw
  have hper : parseEvents raw = .ok str.results := by
    unfold parseEvents
    rw [hokr]
    rfl
  have hprd : parseResultsD raw = str.results := by
    unfold parseResultsD
    rw [hper]
  have hwk : ∀ p ∈ str.results, p.1 = p.2.test_id := parseEvents_wellKeyed raw _ hper
  have hupd_eq : update_failing_run_from_raw old raw =
      (if updatedFailingMap old str.results = [] then .ok none
       else .ok (some (keptOldEvents old (updatedFailingMap old str.results) str.results ++
         filter_failing_tests raw))) := by
    unfold update_failing_run_from_raw
    rw [hper]
  rw [hprd]
  by_cases hU : updatedFailingMap old str.results = []
  · have hupd : update_failing_run_from_raw old raw = .ok none := by
      rw [hupd_eq, if_pos hU]
    exact ⟨by rw [hupd]; rfl, fun _ => hupd, fun hcon => absurd hU hcon⟩
  · have hupd : update_failing_run_from_raw old raw =
        .ok (some (keptOldEvents old (updatedFailingMap old str.results) str.results ++
          filter_failing_tests raw)) := by
      rw [hupd_eq, if_neg hU]
    have htsf : tsValid ((keptOldEvents old (updatedFailingMap old str.results) str.results ++
        filter_failing_tests raw).map StreamItem.eventItem) = true := by
      unfold tsValid
      rw [List.all_eq_true]
      intro it hit
      rw [List.mem_map] at hit
      obtain ⟨e, he, rfl⟩ := hit
      rcases List.mem_append.mp he with he2 | he2
      · obtain ⟨items, holdeq, hmemi, _⟩ := (mem_keptOldEvents _ _ _ e).mp he2
        have hts : tsValid items = true := by
          rw [holdeq] at hold
          exact hold
        simpa [itemTsOk] using tsValid_mem items e hts hmemi
      · have hraw2 := ((mem_filter_failing raw e).mp he2).1
        simpa [itemTsOk] using tsValid_mem raw e hraw hraw2
    obtain ⟨stf, hokf⟩ := parseGo_ok_of_tsValid _ ⟨[], [], 0⟩ htsf
    have hpef : parseEvents ((keptOldEvents old (updatedFailingMap old str.results)
        str.results ++ filter_failing_tests raw).map StreamItem.eventItem) =
        .ok stf.results := by
      unfold parseEvents
      rw [hokf]
      rfl
    have hprdf : parseResultsD ((keptOldEvents old (updatedFailingMap old str.results)
        str.results ++ filter_failing_tests raw).map StreamItem.eventItem) = stf.results := by
      unfold parseResultsD
      rw [hpef]
    have hmm : ∀ tid, mergedMemB old raw tid = (alookup stf.results tid).isSome := by
      intro tid
      unfold mergedMemB
      rw [hupd]
      show (alookup (parseResultsD ((keptOldEvents old
        (updatedFailingMap old str.results) str.results ++
        filter_failing_tests raw).map StreamItem.eventItem)) tid).isSome = _
      rw [hprdf]
    refine ⟨by rw [hupd]; rfl, fun hcon => absurd hcon hU, fun _ tid => ?_⟩
    rw [hmm tid]
    constructor
    · intro hsome
      rcases parseGo_results_sound _ _ _ hokf tid hsome with h | ⟨e, hef, hid, hterm⟩
      · cases h
      · rw [eventItem_mem_map] at hef
        rcases List.mem_append.mp hef with he | he
        · obtain ⟨items, holdeq, hmemi, tid2, hid2, hUsome, hNone⟩ :=
            (mem_keptOldEvents _ _ _ e).mp he
          have heq : tid2 = tid := by
            rw [hid] at hid2
            injection hid2 with h
            exact h.symm
          rw [heq] at hUsome hNone
          right
          refine ⟨?_, hNone⟩
          rw [← updatedFailingMap_untouched old str.results tid hwk hNone]
          exact hUsome
        · left
          obtain ⟨hraw2, tid2, hid2, hcoll⟩ := (mem_filter_failing raw e).mp he
          have heq : tid2 = tid := by
            rw [hid] at hid2
            injection hid2 with h
            exact h.symm
          rw [heq] at hcoll
          exact (hasFailingEvent_iff raw tid).mpr ((mem_collectFailingIds raw tid).mp hcoll)
    · intro h
      rcases h with hf | ⟨hFs, hNone⟩
      · obtain ⟨e, he, hid, hfail⟩ := (hasFailingEvent_iff raw tid).mp hf
        have hmemf : e ∈ filter_failing_tests raw :=
          (mem_filter_failing raw e).mpr
            ⟨he, tid, hid, (mem_collectFailingIds raw tid).mpr ⟨e, he, hid, hfail⟩⟩
        refine parseGo_results_complete _ _ _ hokf (noBreakGo_eventItems _ 0) e tid
          ((eventItem_mem_map _ e).mpr (List.mem_append.mpr (Or.inr hmemf))) hid
          (terminal_of_failure _ hfail)
      · obtain ⟨items, rs0, holdeq, hpitems, hsome0⟩ := readFailingRun_isSome old tid hFs
        have hsound : ∃ e, StreamItem.eventItem e ∈ items ∧ e.test_id = some tid ∧
            (convert_subunit_status e.status).isSome = true := by
          unfold parseEvents at hpitems
          cases hok0 : parseGo items ⟨[], [], 0⟩ with
          | ok st0 =>
            rw [hok0] at hpitems
            simp only [Except.map] at hpitems
            injection hpitems with hpi
            rw [← hpi] at hsome0
            rcases parseGo_results_sound _ _ _ hok0 tid hsome0 with h2 | h2
            · cases h2
            · exact h2
          | error m =>
            rw [hok0] at hpitems
            simp only [Except.map] at hpitems
            cases hpitems
        obtain ⟨e, hmemi, hid, hterm⟩ := hsound
        have hUsome : (alookup (updatedFailingMap old str.results) tid).isSome = true := by
          rw [updatedFailingMap_untouched old str.results tid hwk hNone]
          exact hFs
        have hkept : e ∈ keptOldEvents old (updatedFailingMap old str.results) str.results :=
          (mem_keptOldEvents _ _ _ e).mpr ⟨items, holdeq, hmemi, tid, hid, hUsome, hNone⟩
        exact parseGo_results_complete _ _ _ hokf (noBreakGo_eventItems _ 0) e tid
          ((eventItem_mem_map _ e).mpr (List.mem_append.mpr (Or.inl hkept))) hid hterm

/-- Witness for C3: the amended theorem applied to `c3wold` (failing file
with `x` and `y`) and `c3wraw` (a partial run where `y` passes and `z`
fails); the unmentioned test `x` stays in the failing set. -/
theorem merge_failing_amended_witness : mergedMemB c3wold c3wraw "x" = true :=
  ((merge_failing_amended c3wold c3wraw rfl rfl).2.2 (by decide) "x").mpr
    (Or.inr ⟨rfl, rfl⟩)

end TestRepo
